import Mathlib

/-!
Percentile rescaling of raw volumes to 8 bit: a shallow embedding of `rescale.c` and
`rescale.h`.

Modelling conventions.

* A `float` (and a `raw_t` sample) is an exact rational: rounding of the 32-bit format is
  abstracted away.  A `float` that is not finite (the quotient of a division by zero, and
  whatever is computed from it) is `none` in `Option ℚ`.
* Conversions from `float` to an integer type are partial, as in C: the value is truncated
  toward zero and the behaviour is undefined when the result does not fit the target type.
* An input file is the list of the samples it holds; `fread` takes them `bufcount` at a time.
* The histogram is a block of `slots` 64-bit counters; an access outside the block is
  undefined behaviour.
-/

namespace Rescale

/-! ## rescale.h -/

/-- The two builds of `rescale.h`: `raw_t` is `float`, or `unsigned short` under `UINT16`. -/
inductive SampleType
  | float32
  | uint16
  deriving DecidableEq, Repr

def BUFFER_COUNT : Nat := 100000000
def MAX_BUFFER : Nat := 100000000000
def DEFAULT_HISTOGRAM_BINS : Int := 65536
def THRESHOLD : ℚ := 0.002

def OK : Nat := 0
def ERR_NOT_ENOUGH_ARGUMENTS : Nat := 2
def ERR_STUPID_CONSTRAINTS : Nat := 5
def ERR_FAILED_TO_OPEN_THE_FILE_DESPITE_EVERYTHING_ELSE : Nat := 8
def ERR_BAD_THRESHOLD : Nat := 9
def ERR_FAILED_TO_READ_A_VALUE_FROM_AN_OPEN_FILE : Nat := 10

/-! ## C semantics used by the program -/

/-- Ways in which a run has no defined result. -/
inductive Fault
  | undefined_behaviour
  | no_termination
  deriving DecidableEq, Repr

deriving instance DecidableEq for Except

/-- Truncation toward zero of a finite value: what a C conversion to an integer type keeps. -/
def c_trunc (q : ℚ) : Int := Int.tdiv q.num q.den

/-- Division of two finite floats: a zero divisor gives a non-finite value. -/
def fdiv (a b : ℚ) : Option ℚ := if b = 0 then none else some (a / b)

/-- Conversion `(int)x` of a float: undefined when `x` is not finite or its integral part is
not an `int`. -/
def float_to_int (x : Option ℚ) : Except Fault Int :=
  match x with
  | none => .error .undefined_behaviour
  | some q =>
    if -2147483648 ≤ c_trunc q ∧ c_trunc q ≤ 2147483647 then .ok (c_trunc q)
    else .error .undefined_behaviour

/-- Assignment of a float to a `raw_t` variable: the identity for the float build, the
conversion to `unsigned short` for the `UINT16` build. -/
def to_raw (m : SampleType) (x : ℚ) : Except Fault ℚ :=
  match m with
  | .float32 => .ok x
  | .uint16 =>
    if 0 ≤ c_trunc x ∧ c_trunc x ≤ 65535 then .ok (c_trunc x) else .error .undefined_behaviour

/-- A sample the `UINT16` build leaves out of the histogram
(`buffer[u] == 0 || buffer[u] == 65535`); the float build leaves nothing out. -/
def is_sentinel (m : SampleType) (x : ℚ) : Bool :=
  match m with
  | .float32 => false
  | .uint16 => x == 0 || x == 65535

/-- A value a `raw_t` variable can hold: any finite value for the float build, an integer
from 0 to 65535 for the `UINT16` build. -/
def valid_sample (m : SampleType) (x : ℚ) : Prop :=
  match m with
  | .float32 => True
  | .uint16 => x = (c_trunc x : ℚ) ∧ 0 ≤ c_trunc x ∧ c_trunc x ≤ 65535

instance (m : SampleType) (x : ℚ) : Decidable (valid_sample m x) := by
  unfold valid_sample
  cases m <;> infer_instance

/-- A loop `for (u = 0; u < n; u++) body` over the elements of a buffer, stopping at the
first element on which the body has no defined result. -/
def for_each {σ α : Type} (body : σ → α → Except Fault σ) : List α → σ → Except Fault σ
  | [], s => .ok s
  | x :: xs, s =>
    match body s x with
    | .error e => .error e
    | .ok s' => for_each body xs s'

/-- The loop `while(!feof(infile)) { read_elements = fread(buffer, sizeof(raw_t), bufcount,
infile); body }` on the samples `rest` not yet read.  `fread` returns the next `bufcount`
samples, or all that are left when there are fewer, and only in that case sets the
end-of-file indicator.  The number given before `rest` bounds the iterations; the passes
give one more than the number of samples of the file, which is never used up when
`bufcount` is at least 1, and with `bufcount = 0` the C loop does not end either. -/
def fread_loop {σ : Type} (bufcount : Nat) (body : σ → List ℚ → Except Fault σ) :
    Nat → List ℚ → σ → Except Fault σ
  | 0, _, _ => .error .no_termination
  | fuel + 1, rest, s =>
    match body s (rest.take bufcount) with
    | .error e => .error e
    | .ok s' =>
      if rest.length < bufcount then .ok s'
      else fread_loop bufcount body fuel (rest.drop bufcount) s'

/-! ## rescale.c -/

/-- The outcome of `read_first_value` on a file that could be opened: the error code and,
when it is 0, the value stored in `*target`. -/
def read_first_value (file : List ℚ) : Nat × Option ℚ :=
  match file with
  | [] => (ERR_FAILED_TO_READ_A_VALUE_FROM_AN_OPEN_FILE, none)
  | value :: _ => (0, some value)

/-- Body of the inner loop of `find_minmax_values` on one sample. -/
def minmax_step (mm : ℚ × ℚ) (x : ℚ) : ℚ × ℚ :=
  let minval := if x < mm.1 then x else mm.1
  let maxval := if x > mm.2 then x else mm.2
  (minval, maxval)

/-- Pass 1 on one file: `*minval` and `*maxval` after `find_minmax_values`. -/
def find_minmax_values (file : List ℚ) (minval maxval : ℚ) (bufcount : Nat) :
    Except Fault (ℚ × ℚ) :=
  fread_loop bufcount (fun mm buffer => .ok (buffer.foldl minmax_step mm))
    (file.length + 1) file (minval, maxval)

/-- The statement `histogram[bin]++` on a block of `slots` counters of 64 bits. -/
def histogram_incr (slots : Nat) (histogram : Int → Nat) (bin : Int) :
    Except Fault (Int → Nat) :=
  if 0 ≤ bin ∧ bin < slots then
    .ok (Function.update histogram bin ((histogram bin + 1) % 18446744073709551616))
  else .error .undefined_behaviour

/-- The index `bin = (int)(bin_factor * (buffer[u] - minval))`. -/
def bin_index (minval : ℚ) (bin_factor : Option ℚ) (x : ℚ) : Except Fault Int :=
  float_to_int (bin_factor.map (fun f => f * (x - minval)))

/-- Body of the inner loop of `build_histogram` on one sample. -/
def histogram_step (m : SampleType) (slots : Nat) (minval : ℚ) (bin_factor : Option ℚ)
    (histogram : Int → Nat) (x : ℚ) : Except Fault (Int → Nat) :=
  if is_sentinel m x then .ok histogram
  else
    match bin_index minval bin_factor x with
    | .error e => .error e
    | .ok bin => histogram_incr slots histogram bin

/-- Pass 2 on one file: the histogram after `build_histogram`. -/
def build_histogram (m : SampleType) (slots : Nat) (file : List ℚ) (histogram : Int → Nat)
    (minval : ℚ) (bin_factor : Option ℚ) (bufcount : Nat) : Except Fault (Int → Nat) :=
  fread_loop bufcount
    (fun h buffer => for_each (histogram_step m slots minval bin_factor) buffer h)
    (file.length + 1) file histogram

/-- The sum `calculate_number_of_values` returns; `i < nbins` compares `unsigned int`s. -/
def calculate_number_of_values (slots : Nat) (histogram : Int → Nat) (nbins : Int) :
    Except Fault Nat :=
  let n := (nbins % 4294967296).toNat
  if n ≤ slots then
    .ok (((List.range n).map (fun i => histogram (i : Int))).sum % 18446744073709551616)
  else .error .undefined_behaviour

/-- The per-sample statements of `convert_data`: scale, cast to `int`, clamp, narrow. -/
def convert_value (lowval scalerange : ℚ) (x : ℚ) : Except Fault Nat :=
  match float_to_int ((fdiv (x - lowval) scalerange).map (fun r => 255 * r)) with
  | .error e => .error e
  | .ok val =>
    let val := if val < 0 then 0 else if val > 255 then 255 else val
    .ok (val % 256).toNat

/-- The inner loop of `convert_data` filling `outbuffer` from `inbuffer`. -/
def convert_buffer (lowval scalerange : ℚ) : List ℚ → Except Fault (List Nat)
  | [] => .ok []
  | x :: xs =>
    match convert_value lowval scalerange x with
    | .error e => .error e
    | .ok b =>
      match convert_buffer lowval scalerange xs with
      | .error e => .error e
      | .ok bs => .ok (b :: bs)

/-- The output file in the words of the specification: one byte per input sample, in the
order of the input, each byte the conversion of its sample; no result when the conversion
of a sample has none. -/
def spec_output_file (lowval scalerange : ℚ) (input_file : List ℚ) :
    Except Fault (List Nat) :=
  input_file.mapM (convert_value lowval scalerange)

/-- Pass 3 on one file: the bytes `convert_data` has written to the output file. -/
def convert_data (input_file : List ℚ) (lowval scalerange : ℚ) (buffer_count : Nat) :
    Except Fault (List Nat) :=
  fread_loop buffer_count
    (fun written inbuffer =>
      match convert_buffer lowval scalerange inbuffer with
      | .error e => .error e
      | .ok outbuffer => .ok (written ++ outbuffer))
    (input_file.length + 1) input_file []

/-- Pass 1 of `main`: `find_minmax_values` on every input file in turn. -/
def pass1 (input_files : List (List ℚ)) (minval maxval : ℚ) (buffer_count : Nat) :
    Except Fault (ℚ × ℚ) :=
  for_each (fun mm file => find_minmax_values file mm.1 mm.2 buffer_count)
    input_files (minval, maxval)

/-- Pass 2 of `main`: `build_histogram` on every input file in turn. -/
def pass2 (m : SampleType) (slots : Nat) (input_files : List (List ℚ))
    (histogram : Int → Nat) (minval : ℚ) (bfac : Option ℚ) (buffer_count : Nat) :
    Except Fault (Int → Nat) :=
  for_each (fun h file => build_histogram m slots file h minval bfac buffer_count)
    input_files histogram

/-- The variables the percentile loop of `main` updates. -/
structure Walk where
  pvals : Option ℚ
  lowval : ℚ
  highval : ℚ
  deriving DecidableEq, Repr

/-- The sum `pvals + q` of two floats. -/
def fadd (a b : Option ℚ) : Option ℚ :=
  match a, b with
  | some x, some y => some (x + y)
  | _, _ => none

/-- The comparison `pvals < t`; a non-finite `pvals` (not below anything here, being the
quotient of a counter by zero) compares false. -/
def flt (a : Option ℚ) (t : ℚ) : Bool :=
  match a with
  | some x => decide (x < t)
  | none => false

/-- The comparison `pvals <= t`, false for a non-finite `pvals` as in `flt`. -/
def fle (a : Option ℚ) (t : ℚ) : Bool :=
  match a with
  | some x => decide (x ≤ t)
  | none => false

/-- Body of the percentile loop of `main` for bin `i`. -/
def percentile_step (m : SampleType) (histogram : Int → Nat) (nvals : Nat)
    (binsize minval t_low t_high : ℚ) (w : Walk) (i : Nat) : Except Fault Walk :=
  let pvals := fadd w.pvals (fdiv (histogram (i : Int)) nvals)
  match (if flt pvals t_low then to_raw m (i * binsize + minval) else .ok w.lowval) with
  | .error e => .error e
  | .ok lowval =>
    match (if fle pvals t_high then to_raw m (i * binsize + minval) else .ok w.highval) with
    | .error e => .error e
    | .ok highval => .ok ⟨pvals, lowval, highval⟩

/-- The percentile loop of `main`, from `lowval = minval; highval = maxval;` and
`pvals = 0.0`, over the bins `0 .. nbins - 1`. -/
def percentile_walk (m : SampleType) (histogram : Int → Nat) (nvals : Nat) (nbins : Int)
    (binsize minval maxval t_low t_high : ℚ) : Except Fault Walk :=
  for_each (percentile_step m histogram nvals binsize minval t_low t_high)
    (List.range nbins.toNat) ⟨some 0, minval, maxval⟩

/-- What the percentile loop keeps true before it handles bin `k`. -/
def walk_inv (m : SampleType) (binsize minval maxval : ℚ) (k : Nat) (w : Walk) : Prop :=
  minval ≤ w.lowval ∧ w.lowval ≤ w.highval ∧ w.highval ≤ maxval ∧
  ∀ j : Nat, k ≤ j → ∀ r, to_raw m (j * binsize + minval) = .ok r → w.lowval ≤ r

/-- Pass 3 of `main`: `convert_data` on every input file in turn, one output per input. -/
def pass3 (lowval scalerange : ℚ) (buffer_count : Nat) :
    List (List ℚ) → Except Fault (List (List Nat))
  | [] => .ok []
  | file :: files =>
    match convert_data file lowval scalerange buffer_count with
    | .error e => .error e
    | .ok out =>
      match pass3 lowval scalerange buffer_count files with
      | .error e => .error e
      | .ok outs => .ok (out :: outs)

/-- The statistics of a run: the extent, the bin size, the number of values counted and the
percentile window with its scaling range. -/
structure Window where
  minval : ℚ
  maxval : ℚ
  binsize : ℚ
  nvals : Nat
  lowval : ℚ
  highval : ℚ
  scalerange : ℚ
  deriving DecidableEq, Repr

/-- The storage `main` allocates for the histogram, `malloc(sizeof(uint64_t *) * 1028)`, in
counters of 8 bytes. -/
def histogram_slots : Nat := 8 * 1028 / 8

/-- The statements of `main` from `range = maxval - minval` to
`scalerange = highval - lowval`: bin size and bin factor, pass 2, the number of values and
the percentile loop, for the extent pass 1 has left in `minval` and `maxval`. -/
def window_from_extent (m : SampleType) (slots : Nat) (histogram : Int → Nat)
    (threshold : ℚ) (nbins : Int) (buffer_count : Nat) (input_files : List (List ℚ))
    (minval maxval : ℚ) : Except Fault Window :=
  let t_low := threshold
  let t_high := 1 - t_low
  let range := maxval - minval
  let binsize := range / nbins
  let bfac := fdiv nbins range
  match pass2 m slots input_files histogram minval bfac buffer_count with
  | .error e => .error e
  | .ok histogram =>
    match calculate_number_of_values slots histogram nbins with
    | .error e => .error e
    | .ok nvals =>
      match percentile_walk m histogram nvals nbins binsize minval maxval t_low t_high with
      | .error e => .error e
      | .ok w =>
        .ok ⟨minval, maxval, binsize, nvals, w.lowval, w.highval, w.highval - w.lowval⟩

/-- How the part of `main` before pass 3 ends: with an error code, or with the window. -/
inductive Resolved
  | exit (code : Nat)
  | window (w : Window)
  deriving DecidableEq, Repr

/-- The part of `main` between option handling and pass 3, on input files that can be opened
and read.  `histogram` is the content of the block `malloc` returned, `slots` its size in
counters.  The three tests at the top are those every value set by an option has passed
(the defaults pass them too). -/
def resolve_window (m : SampleType) (slots : Nat) (histogram : Int → Nat) (threshold : ℚ)
    (nbins : Int) (buffer_count : Nat) (input_files : List (List ℚ)) :
    Except Fault Resolved :=
  if buffer_count = 0 then .ok (.exit ERR_STUPID_CONSTRAINTS)
  else if threshold < 0 ∨ threshold > 1 / 2 then .ok (.exit ERR_BAD_THRESHOLD)
  else if nbins < 1 then .ok (.exit ERR_STUPID_CONSTRAINTS)
  else
    match input_files with
    | [] => .ok (.exit ERR_NOT_ENOUGH_ARGUMENTS)
    | first :: _ =>
      match read_first_value first with
      | (0, some maxval) =>
        let minval := maxval
        match pass1 input_files minval maxval buffer_count with
        | .error e => .error e
        | .ok (minval, maxval) =>
          match window_from_extent m slots histogram threshold nbins buffer_count
              input_files minval maxval with
          | .error e => .error e
          | .ok w => .ok (.window w)
      | _ => .ok (.exit ERR_FAILED_TO_OPEN_THE_FILE_DESPITE_EVERYTHING_ELSE)

/-- How `main` returns: early with an error code, or with `OK` after pass 3 has written one
output file per input file. -/
inductive Outcome
  | exit (code : Nat)
  | finished (w : Window) (outputs : List (List Nat))
  deriving DecidableEq, Repr

/-- The run of `main` after option handling: the statistics, then pass 3 with the window
found, whatever it is. -/
def main_passes (m : SampleType) (slots : Nat) (histogram : Int → Nat) (threshold : ℚ)
    (nbins : Int) (buffer_count : Nat) (input_files : List (List ℚ)) :
    Except Fault Outcome :=
  match resolve_window m slots histogram threshold nbins buffer_count input_files with
  | .error e => .error e
  | .ok (.exit code) => .ok (.exit code)
  | .ok (.window w) =>
    match pass3 w.lowval w.scalerange buffer_count input_files with
    | .error e => .error e
    | .ok outputs => .ok (.finished w outputs)

/-! ## Quantities the statements about the percentile window speak of -/

/-- The number of values counted in the bins `0 .. n - 1`. -/
def cumulative (histogram : Int → Nat) (n : Nat) : Nat :=
  ((List.range n).map (fun (i : Nat) => histogram (i : Int))).sum

/-- The number of values counted in those of the bins `0 .. nbins - 1` that lie entirely
below `lowval`; bin `j` ends at `(j + 1) * binsize + minval`. -/
def counted_below (histogram : Int → Nat) (nbins : Int) (binsize minval lowval : ℚ) : Nat :=
  (((List.range nbins.toNat).filter
      (fun (j : Nat) => decide (((j : ℚ) + 1) * binsize + minval ≤ lowval))).map
    (fun (j : Nat) => histogram (j : Int))).sum

/-- The number of values counted in the bins `first .. nbins - 1`. -/
def counted_from (histogram : Int → Nat) (nbins : Int) (first : Nat) : Nat :=
  (((List.range nbins.toNat).filter (fun (j : Nat) => decide (first ≤ j))).map
    (fun (j : Nat) => histogram (j : Int))).sum

/-- The value `v` is what a variable of the percentile loop holds after the bins
`0 .. n - 1`: its default `dflt` when no bin met the condition `hit`, and else the lower
edge, as a `raw_t`, of the last bin that met it. -/
def last_update (m : SampleType) (binsize minval dflt : ℚ) (hit : Nat → Prop) (n : Nat)
    (v : ℚ) : Prop :=
  (v = dflt ∧ ∀ i, i < n → ¬ hit i) ∨
  ∃ i, i < n ∧ to_raw m (i * binsize + minval) = .ok v ∧ hit i ∧
    ∀ j, i < j → j < n → ¬ hit j

/-! ## Option handling -/

def ERR_HELP_REQUESTED : Nat := 1
def ERR_ARGUMENTS_BEYOND_RECOGNITION : Nat := 3
def ERR_UNREADABLE_FILE_UNSURPRISINGLY_CANNOT_BE_READ : Nat := 6
def ERR_FILE_STATS_UNREADABLE_DESPITE_FILE_BEING_READABLE : Nat := 7

/-- The default output suffix. -/
def PROCESSED_SUFFIX : List Char := ".8bit.scaled.raw".toList

/-- The call `snprintf(buffer, size, "%s", str)`: at most `size - 1` characters of `str` are
stored.  Strings are lists of characters other than NUL. -/
def snprintf (size : Nat) (str : List Char) : List Char := str.take (size - 1)

/-- What `getopt` returns for `"ahb:t:s:n:"`, with the argument as `strtoul`, `atof` or
`atoi` have converted it. -/
inductive Opt
  | h
  | b (count : Nat)
  | t (value : ℚ)
  | s (str : List Char)
  | a
  | n (bins : Int)
  | other
  deriving DecidableEq, Repr

/-- The variables of `main` that options set. -/
structure Settings where
  buffer_count : Nat
  nbins : Int
  threshold : ℚ
  processed_suffix : List Char
  auto_flag : Bool
  deriving DecidableEq, Repr

/-- The values `main` gives these variables before it looks at the options. -/
def initial_settings : Settings :=
  ⟨BUFFER_COUNT, DEFAULT_HISTOGRAM_BINS, THRESHOLD, PROCESSED_SUFFIX, false⟩

/-- One round of the `switch(opt)` of `main`: the exit code returned, or the variables
afterwards. -/
def handle_option (c : Settings) : Opt → Except Nat Settings
  | .h => .error ERR_HELP_REQUESTED
  | .b count =>
    if count = 0 then .error ERR_STUPID_CONSTRAINTS
    else if count > MAX_BUFFER then .ok { c with buffer_count := MAX_BUFFER }
    else .ok { c with buffer_count := count }
  | .t value =>
    if value < 0 ∨ value > 1 / 2 then .error ERR_BAD_THRESHOLD
    else .ok { c with threshold := value }
  | .s str => .ok { c with processed_suffix := snprintf (1 + str.length) str }
  | .a => .ok { c with auto_flag := true }
  | .n bins =>
    if bins < 1 then .error ERR_STUPID_CONSTRAINTS else .ok { c with nbins := bins }
  | .other => .error ERR_ARGUMENTS_BEYOND_RECOGNITION

/-- The loop `while ((opt = getopt(...)) != -1)` of `main`. -/
def handle_options : List Opt → Settings → Except Nat Settings
  | [], c => .ok c
  | o :: os, c =>
    match handle_option c o with
    | .error code => .error code
    | .ok c' => handle_options os c'

/-! ## Input files that may fail -/

/-- What `fopen` and `fread` meet under an input path once the checks of the preflight loop
have passed: a file that cannot be opened, a file read to its end, or a file whose reads
deliver some samples and then fail for good (error indicator set, never end-of-file). -/
inductive InputFile
  | unopenable
  | readable (samples : List ℚ)
  | failing (samples : List ℚ)
  deriving DecidableEq, Repr

/-- The function `read_first_value`: the code returned and, when it is 0, `*target`. -/
def read_first_value_file : InputFile → Nat × Option ℚ
  | .unopenable => (ERR_FAILED_TO_OPEN_THE_FILE_DESPITE_EVERYTHING_ELSE, none)
  | .readable samples => read_first_value samples
  | .failing [] => (ERR_FAILED_TO_READ_A_VALUE_FROM_AN_OPEN_FILE, none)
  | .failing (value :: _) => (0, some value)

/-- The loop `while(!feof(infile)) { fread; body }` on a file whose reads fail once `rest`
has been delivered: `feof` stays false, so the loop goes on for as many rounds as it is
watched (`patience`), with empty buffers once `rest` is used up. -/
def fread_loop_failing {σ : Type} (bufcount : Nat) (body : σ → List ℚ → Except Fault σ) :
    Nat → List ℚ → σ → Except Fault σ
  | 0, _, _ => .error .no_termination
  | patience + 1, rest, s =>
    match body s (rest.take bufcount) with
    | .error e => .error e
    | .ok s' => fread_loop_failing bufcount body patience (rest.drop bufcount) s'

/-- The function `find_minmax_values` on an input file that may fail: the result of
`fopen` is handed to `feof` unchecked. -/
def find_minmax_values_file (patience : Nat) (file : InputFile) (minval maxval : ℚ)
    (bufcount : Nat) : Except Fault (ℚ × ℚ) :=
  match file with
  | .unopenable => .error .undefined_behaviour
  | .readable samples => find_minmax_values samples minval maxval bufcount
  | .failing samples =>
    fread_loop_failing bufcount (fun mm buffer => .ok (buffer.foldl minmax_step mm))
      patience samples (minval, maxval)

/-- The function `build_histogram` on an input file that may fail. -/
def build_histogram_file (m : SampleType) (slots patience : Nat) (file : InputFile)
    (histogram : Int → Nat) (minval : ℚ) (bin_factor : Option ℚ) (bufcount : Nat) :
    Except Fault (Int → Nat) :=
  match file with
  | .unopenable => .error .undefined_behaviour
  | .readable samples => build_histogram m slots samples histogram minval bin_factor bufcount
  | .failing samples =>
    fread_loop_failing bufcount
      (fun h buffer => for_each (histogram_step m slots minval bin_factor) buffer h)
      patience samples histogram

/-- The function `convert_data` on an input file that may fail. -/
def convert_data_file (patience : Nat) (input_file : InputFile) (lowval scalerange : ℚ)
    (buffer_count : Nat) : Except Fault (List Nat) :=
  match input_file with
  | .unopenable => .error .undefined_behaviour
  | .readable samples => convert_data samples lowval scalerange buffer_count
  | .failing samples =>
    fread_loop_failing buffer_count
      (fun written inbuffer =>
        match convert_buffer lowval scalerange inbuffer with
        | .error e => .error e
        | .ok outbuffer => .ok (written ++ outbuffer))
      patience samples []

/-- Pass 1 of `main` on input files that may fail. -/
def pass1_files (patience : Nat) (input_files : List InputFile) (minval maxval : ℚ)
    (buffer_count : Nat) : Except Fault (ℚ × ℚ) :=
  for_each (fun mm file => find_minmax_values_file patience file mm.1 mm.2 buffer_count)
    input_files (minval, maxval)

/-- Pass 2 of `main` on input files that may fail. -/
def pass2_files (m : SampleType) (slots patience : Nat) (input_files : List InputFile)
    (histogram : Int → Nat) (minval : ℚ) (bfac : Option ℚ) (buffer_count : Nat) :
    Except Fault (Int → Nat) :=
  for_each
    (fun h file => build_histogram_file m slots patience file h minval bfac buffer_count)
    input_files histogram

/-- Pass 3 of `main` on input files that may fail. -/
def pass3_files (patience : Nat) (lowval scalerange : ℚ) (buffer_count : Nat) :
    List InputFile → Except Fault (List (List Nat))
  | [] => .ok []
  | file :: files =>
    match convert_data_file patience file lowval scalerange buffer_count with
    | .error e => .error e
    | .ok out =>
      match pass3_files patience lowval scalerange buffer_count files with
      | .error e => .error e
      | .ok outs => .ok (out :: outs)

/-- The statements of `main` from `nvals = calculate_number_of_values(...)` to
`scalerange = highval - lowval`, for the histogram pass 2 has filled. -/
def window_of_histogram (m : SampleType) (slots : Nat) (histogram : Int → Nat)
    (threshold : ℚ) (nbins : Int) (minval maxval : ℚ) : Except Fault Window :=
  let t_low := threshold
  let t_high := 1 - t_low
  let range := maxval - minval
  let binsize := range / nbins
  match calculate_number_of_values slots histogram nbins with
  | .error e => .error e
  | .ok nvals =>
    match percentile_walk m histogram nvals nbins binsize minval maxval t_low t_high with
    | .error e => .error e
    | .ok w =>
      .ok ⟨minval, maxval, binsize, nvals, w.lowval, w.highval, w.highval - w.lowval⟩

/-- The statements of `main` that follow `minval = maxval;`: the three passes and the
statistics between them, on input files that may fail. -/
def main_after_seed (m : SampleType) (slots : Nat) (histogram : Int → Nat) (threshold : ℚ)
    (nbins : Int) (buffer_count patience : Nat) (input_files : List InputFile)
    (minval maxval : ℚ) : Except Fault Outcome :=
  match pass1_files patience input_files minval maxval buffer_count with
  | .error e => .error e
  | .ok (minval, maxval) =>
    match pass2_files m slots patience input_files histogram minval
        (fdiv nbins (maxval - minval)) buffer_count with
    | .error e => .error e
    | .ok histogram =>
      match window_of_histogram m slots histogram threshold nbins minval maxval with
      | .error e => .error e
      | .ok w =>
        match pass3_files patience w.lowval w.scalerange buffer_count input_files with
        | .error e => .error e
        | .ok outputs => .ok (.finished w outputs)

/-- The run of `main` after the preflight loop, on input files that may fail: the first
value is read, and only if that succeeds do the passes start.  The three tests at the top
are those of option handling, as in `resolve_window`. -/
def main_files (m : SampleType) (slots : Nat) (histogram : Int → Nat) (threshold : ℚ)
    (nbins : Int) (buffer_count patience : Nat) (input_files : List InputFile) :
    Except Fault Outcome :=
  if buffer_count = 0 then .ok (.exit ERR_STUPID_CONSTRAINTS)
  else if threshold < 0 ∨ threshold > 1 / 2 then .ok (.exit ERR_BAD_THRESHOLD)
  else if nbins < 1 then .ok (.exit ERR_STUPID_CONSTRAINTS)
  else
    match input_files with
    | [] => .ok (.exit ERR_NOT_ENOUGH_ARGUMENTS)
    | first :: _ =>
      match read_first_value_file first with
      | (0, some maxval) =>
        main_after_seed m slots histogram threshold nbins buffer_count patience input_files
          maxval maxval
      | _ => .ok (.exit ERR_FAILED_TO_OPEN_THE_FILE_DESPITE_EVERYTHING_ELSE)

/-! ## Output names -/

/-- One of the three characters at which the loop of `strip_ext` stops. -/
def is_separator (c : Char) : Bool := c == '.' || c == '\\' || c == '/'

/-- The position at which the `while` loop of `strip_ext` leaves `end` when it is entered
with `end` at position `e`; the character at position `strlen(fname)` is the NUL. -/
def strip_ext_scan (fname : List Char) : Nat → Nat
  | 0 => 0
  | e + 1 =>
    if is_separator (fname.getD (e + 1) (Char.ofNat 0)) then e + 1
    else strip_ext_scan fname e

/-- The string `strip_ext` leaves in `fname`. -/
def strip_ext (fname : List Char) : List Char :=
  let e := strip_ext_scan fname fname.length
  if 0 < e ∧ fname.getD e (Char.ofNat 0) = '.' ∧
      fname.getD (e - 1) (Char.ofNat 0) ≠ '\\' ∧ fname.getD (e - 1) (Char.ofNat 0) ≠ '/' then
    fname.take e
  else fname

/-- One of the characters `0123456789`. -/
def is_digit (c : Char) : Bool := decide ('0' ≤ c) && decide (c ≤ '9')

/-- The number a run of decimal digits denotes. -/
def digit_value (digits : List Char) : Nat :=
  digits.foldl (fun acc c => 10 * acc + (c.toNat - 48)) 0

/-- The test `strstr(line, needle) != NULL`. -/
def strstr_found (needle : List Char) : List Char → Bool
  | [] => needle.isEmpty
  | c :: cs => needle.isPrefixOf (c :: cs) || strstr_found needle cs

/-- The directive `%*[^0123456789]` of `sscanf`: a run of at least one character that is
not a digit is skipped; there is no match when the input starts with a digit or is used
up. -/
def skip_non_digits (s : List Char) : Option (List Char) :=
  match s.takeWhile (fun c => !is_digit c) with
  | [] => none
  | _ :: _ => some (s.dropWhile (fun c => !is_digit c))

/-- The directive `%d` of `sscanf` on input that starts with a digit or is used up (as it
does after `%*[^0123456789]`): the longest run of digits is read. -/
def scan_digits (s : List Char) : Option (Nat × List Char) :=
  match s.takeWhile is_digit with
  | [] => none
  | d :: ds => some (digit_value (d :: ds), s.dropWhile is_digit)

/-- The directives `%*[^0123456789]%d` together. -/
def scan_number (s : List Char) : Option (Nat × List Char) :=
  match skip_non_digits s with
  | none => none
  | some rest => scan_digits rest

/-- The call `sscanf(line, "%*[^0123456789]%d%*[^0123456789]%d%*[^0123456789]%d", &x, &y,
&z)`: the values of `x`, `y`, `z` afterwards.  Directives are carried out until one has no
match; a number that is not an `int` has no defined conversion. -/
def sscanf_size (line : List Char) (x y z : Int) : Except Fault (Int × Int × Int) :=
  match scan_number line with
  | none => .ok (x, y, z)
  | some (vx, r1) =>
    if vx > 2147483647 then .error .undefined_behaviour
    else
      match scan_number r1 with
      | none => .ok (vx, y, z)
      | some (vy, r2) =>
        if vy > 2147483647 then .error .undefined_behaviour
        else
          match scan_number r2 with
          | none => .ok (vx, vy, z)
          | some (vz, _) =>
            if vz > 2147483647 then .error .undefined_behaviour else .ok (vx, vy, vz)

/-- The string `sprintf(output_filename, "%dx%dx%dx8bit.raw", x, y, z)` writes. -/
def sprintf_size (x y z : Int) : List Char :=
  (toString x).toList ++ "x".toList ++ (toString y).toList ++ "x".toList
    ++ (toString z).toList ++ "x8bit.raw".toList

/-- The function `read_update_size_vgi`: the string returned, and whether it lies in
storage obtained from `malloc` (it does not when the string is the literal
`PROCESSED_SUFFIX`).  `vgi` is `none` when the `.vgi` file cannot be opened, and else the
strings that the calls of `fgets(line, sizeof line, input_file)` return one after the
other. -/
def read_update_size_vgi (vgi : Option (List (List Char))) (x y z : Int) :
    Except Fault (List Char × Bool) :=
  match vgi with
  | none => .ok (PROCESSED_SUFFIX, false)
  | some lines =>
    match lines.find? (fun line => strstr_found "size =".toList line) with
    | none => .ok (sprintf_size x y z, true)
    | some line =>
      match sscanf_size line x y z with
      | .error e => .error e
      | .ok (x', y', z') => .ok (sprintf_size x' y' z', true)

/-- An argument of `main` that names an input file: the path, what `access(path, R_OK)` and
`get_filesize(path)` report, and what the later calls of `fopen` and `fread` meet. -/
structure Input where
  path : List Char
  accessible : Bool
  stat_ok : Bool
  file : InputFile
  deriving DecidableEq, Repr

/-- The variables the preflight loop of `main` carries from one input file to the next:
the suffix, whether `processed_suffix` points into storage obtained from `malloc`, and the
output names built so far. -/
structure Naming where
  processed_suffix : List Char
  suffix_on_heap : Bool
  output_files : List (List Char)
  deriving DecidableEq, Repr

/-- How `main` stops before it has written its output: without a defined result, or with
an exit code. -/
inductive Stop
  | fault (f : Fault)
  | exit (code : Nat)
  deriving DecidableEq, Repr

/-- The block `if (auto_flag == 1) { ... }` of the preflight loop: `processed_suffix` is
freed, the name of the `.vgi` file is put together in the 1028 bytes of `vol_file_name`,
and the suffix is taken from `read_update_size_vgi`.  `vgi_files` tells what `fopen` and
`fgets` meet under a name. -/
def auto_suffix (vgi_files : List Char → Option (List (List Char))) (st : Naming)
    (path : List Char) : Except Fault (List Char × Bool) :=
  if st.suffix_on_heap = false then .error .undefined_behaviour
  else if 1028 < path.length + 1 then .error .undefined_behaviour
  else if 1028 < (strip_ext path).length + 4 + 1 then .error .undefined_behaviour
  else read_update_size_vgi (vgi_files (strip_ext path ++ ".vgi".toList)) 0 0 0

/-- One round of the preflight loop of `main`. -/
def preflight_step (auto_flag : Bool) (vgi_files : List Char → Option (List (List Char)))
    (st : Naming) (inp : Input) : Except Stop Naming :=
  if inp.accessible = false then
    .error (.exit ERR_UNREADABLE_FILE_UNSURPRISINGLY_CANNOT_BE_READ)
  else if inp.stat_ok = false then
    .error (.exit ERR_FILE_STATS_UNREADABLE_DESPITE_FILE_BEING_READABLE)
  else
    match (if auto_flag then auto_suffix vgi_files st inp.path
        else .ok (st.processed_suffix, st.suffix_on_heap)) with
    | .error f => .error (.fault f)
    | .ok (suffix, on_heap) =>
      .ok ⟨suffix, on_heap, st.output_files ++
        [snprintf (5 + inp.path.length + suffix.length) (inp.path ++ suffix)]⟩

/-- The preflight loop of `main` over the input files. -/
def preflight (auto_flag : Bool) (vgi_files : List Char → Option (List (List Char))) :
    List Input → Naming → Except Stop Naming
  | [], st => .ok st
  | inp :: inps, st =>
    match preflight_step auto_flag vgi_files st inp with
    | .error stop => .error stop
    | .ok st' => preflight auto_flag vgi_files inps st'

/-- What a run that returns `OK` has done: the statistics and, per input file, the name of
the output file and the bytes written to it. -/
structure Done where
  window : Window
  outputs : List (List Char × List Nat)
  deriving DecidableEq, Repr

/-- The function `main`: option handling, the preflight loop, the first value, the passes.
`histogram` is the content of the block `malloc` returned for the histogram and `slots` its
size in counters. -/
def main (m : SampleType) (slots : Nat) (histogram : Int → Nat)
    (vgi_files : List Char → Option (List (List Char))) (patience : Nat) (opts : List Opt)
    (inputs : List Input) : Except Stop Done :=
  match handle_options opts initial_settings with
  | .error code => .error (.exit code)
  | .ok c =>
    if inputs.length < 1 then .error (.exit ERR_NOT_ENOUGH_ARGUMENTS)
    else
      match preflight c.auto_flag vgi_files inputs ⟨c.processed_suffix, true, []⟩ with
      | .error stop => .error stop
      | .ok names =>
        match main_files m slots histogram c.threshold c.nbins c.buffer_count patience
            (inputs.map (fun inp => inp.file)) with
        | .error f => .error (.fault f)
        | .ok (.exit code) => .error (.exit code)
        | .ok (.finished w outputs) => .ok ⟨w, names.output_files.zip outputs⟩

/-! ## Reading a file in chunks -/

theorem for_each_append {σ α : Type} (body : σ → α → Except Fault σ) (xs ys : List α)
    (s : σ) :
    for_each body (xs ++ ys) s =
      match for_each body xs s with
      | .error e => .error e
      | .ok s' => for_each body ys s' := by
  induction xs generalizing s with
  | nil => rfl
  | cons x xs ih =>
    simp only [List.cons_append, for_each]
    cases body s x with
    | error e => rfl
    | ok s' => exact ih s'

/-- With a buffer of at least one sample and a body that treats a chunk followed by another
as their concatenation, the read loop ends and does to the state what the body does on the
whole file. -/
theorem fread_loop_whole {σ : Type} (bufcount : Nat) (body : σ → List ℚ → Except Fault σ)
    (hC : 1 ≤ bufcount)
    (hbody : ∀ s xs ys, body s (xs ++ ys) =
      match body s xs with
      | .error e => .error e
      | .ok s' => body s' ys)
    (fuel : Nat) (rest : List ℚ) (s : σ) (hfuel : rest.length < fuel) :
    fread_loop bufcount body fuel rest s = body s rest := by
  induction fuel generalizing rest s with
  | zero => exact absurd hfuel (Nat.not_lt_zero _)
  | succ fuel ih =>
    unfold fread_loop
    by_cases hlt : rest.length < bufcount
    · have htake : rest.take bufcount = rest := List.take_of_length_le (Nat.le_of_lt hlt)
      rw [htake]
      cases body s rest with
      | error e => rfl
      | ok s' => simp [hlt]
    · have hsplit := hbody s (rest.take bufcount) (rest.drop bufcount)
      rw [List.take_append_drop] at hsplit
      rw [hsplit]
      cases body s (rest.take bufcount) with
      | error e => rfl
      | ok s' =>
        simp only [hlt, if_false]
        apply ih
        rw [List.length_drop]
        omega

/-- With a buffer of no sample `fread` never reaches the end of the file. -/
theorem fread_loop_zero {σ : Type} (body : σ → List ℚ → Except Fault σ)
    (hnil : ∀ s, body s [] = .ok s) (fuel : Nat) (rest : List ℚ) (s : σ) :
    fread_loop 0 body fuel rest s = .error .no_termination := by
  induction fuel with
  | zero => rfl
  | succ fuel ih =>
    unfold fread_loop
    simp [hnil, ih]

theorem find_minmax_values_whole (file : List ℚ) (minval maxval : ℚ) (bufcount : Nat)
    (hC : 1 ≤ bufcount) :
    find_minmax_values file minval maxval bufcount
      = .ok (file.foldl minmax_step (minval, maxval)) := by
  unfold find_minmax_values
  rw [fread_loop_whole bufcount _ hC _ _ _ _ (Nat.lt_succ_self _)]
  intro s xs ys
  simp [List.foldl_append]

theorem build_histogram_whole (m : SampleType) (slots : Nat) (file : List ℚ)
    (histogram : Int → Nat) (minval : ℚ) (bin_factor : Option ℚ) (bufcount : Nat)
    (hC : 1 ≤ bufcount) :
    build_histogram m slots file histogram minval bin_factor bufcount
      = for_each (histogram_step m slots minval bin_factor) file histogram := by
  unfold build_histogram
  rw [fread_loop_whole bufcount _ hC _ _ _ _ (Nat.lt_succ_self _)]
  intro s xs ys
  exact for_each_append _ xs ys s

theorem convert_buffer_append (lowval scalerange : ℚ) (xs ys : List ℚ) :
    convert_buffer lowval scalerange (xs ++ ys) =
      match convert_buffer lowval scalerange xs with
      | .error e => .error e
      | .ok bs =>
        match convert_buffer lowval scalerange ys with
        | .error e => .error e
        | .ok cs => .ok (bs ++ cs) := by
  induction xs with
  | nil =>
    simp only [List.nil_append, convert_buffer]
    cases convert_buffer lowval scalerange ys <;> rfl
  | cons x xs ih =>
    rw [List.cons_append]
    simp only [convert_buffer]
    cases convert_value lowval scalerange x with
    | error e => rfl
    | ok b =>
      simp only [ih]
      cases convert_buffer lowval scalerange xs with
      | error e => rfl
      | ok bs =>
        cases convert_buffer lowval scalerange ys <;> rfl

theorem convert_data_whole (input_file : List ℚ) (lowval scalerange : ℚ)
    (buffer_count : Nat) (hC : 1 ≤ buffer_count) :
    convert_data input_file lowval scalerange buffer_count
      = convert_buffer lowval scalerange input_file := by
  unfold convert_data
  rw [fread_loop_whole buffer_count _ hC _ _ _ _ (Nat.lt_succ_self _)]
  · cases convert_buffer lowval scalerange input_file <;> simp
  · intro s xs ys
    rw [convert_buffer_append]
    cases convert_buffer lowval scalerange xs with
    | error e => rfl
    | ok bs =>
      cases convert_buffer lowval scalerange ys with
      | error e => rfl
      | ok cs => simp [List.append_assoc]

/-! ## The passes do not depend on the buffer size -/

theorem pass1_bufcount (input_files : List (List ℚ)) (minval maxval : ℚ)
    (buffer_count : Nat) (hC : 1 ≤ buffer_count) :
    pass1 input_files minval maxval buffer_count = pass1 input_files minval maxval 1 := by
  unfold pass1
  congr 1
  funext mm file
  rw [find_minmax_values_whole _ _ _ _ hC, find_minmax_values_whole _ _ _ _ (le_refl 1)]

theorem pass2_bufcount (m : SampleType) (slots : Nat) (input_files : List (List ℚ))
    (histogram : Int → Nat) (minval : ℚ) (bfac : Option ℚ) (buffer_count : Nat)
    (hC : 1 ≤ buffer_count) :
    pass2 m slots input_files histogram minval bfac buffer_count
      = pass2 m slots input_files histogram minval bfac 1 := by
  unfold pass2
  congr 1
  funext h file
  rw [build_histogram_whole _ _ _ _ _ _ _ hC, build_histogram_whole _ _ _ _ _ _ _ (le_refl 1)]

theorem pass3_bufcount (lowval scalerange : ℚ) (buffer_count : Nat) (hC : 1 ≤ buffer_count)
    (input_files : List (List ℚ)) :
    pass3 lowval scalerange buffer_count input_files
      = pass3 lowval scalerange 1 input_files := by
  induction input_files with
  | nil => rfl
  | cons file files ih =>
    simp only [pass3, ih, convert_data_whole _ _ _ _ hC, convert_data_whole _ _ _ _ (le_refl 1)]

theorem window_from_extent_bufcount (m : SampleType) (slots : Nat) (histogram : Int → Nat)
    (threshold : ℚ) (nbins : Int) (buffer_count : Nat) (hC : 1 ≤ buffer_count)
    (input_files : List (List ℚ)) (minval maxval : ℚ) :
    window_from_extent m slots histogram threshold nbins buffer_count input_files
        minval maxval
      = window_from_extent m slots histogram threshold nbins 1 input_files minval maxval := by
  simp only [window_from_extent, pass2_bufcount _ _ _ _ _ _ _ hC]

theorem resolve_window_bufcount (m : SampleType) (slots : Nat) (histogram : Int → Nat)
    (threshold : ℚ) (nbins : Int) (buffer_count : Nat) (hC : 1 ≤ buffer_count)
    (input_files : List (List ℚ)) :
    resolve_window m slots histogram threshold nbins buffer_count input_files
      = resolve_window m slots histogram threshold nbins 1 input_files := by
  have h0 : buffer_count ≠ 0 := by omega
  unfold resolve_window
  simp only [h0, if_false, one_ne_zero]
  cases input_files with
  | nil => rfl
  | cons first rest =>
    simp only [pass1_bufcount _ _ _ _ hC, window_from_extent_bufcount _ _ _ _ _ _ hC]

theorem main_passes_bufcount (m : SampleType) (slots : Nat) (histogram : Int → Nat)
    (threshold : ℚ) (nbins : Int) (buffer_count : Nat) (hC : 1 ≤ buffer_count)
    (input_files : List (List ℚ)) :
    main_passes m slots histogram threshold nbins buffer_count input_files
      = main_passes m slots histogram threshold nbins 1 input_files := by
  unfold main_passes
  simp only [resolve_window_bufcount _ _ _ _ _ _ hC, pass3_bufcount _ _ _ hC]

/-! ## End-to-end scenario 1 -/

/-- C1, as stated: the run on the single file `[0, 10, 20, 30]` with threshold 0 and 4 bins
does not end with `highValue = 30`, `scalerange = 30` and the bytes `[0, 85, 170, 255]`. -/
theorem scenario1_stated_values_refuted :
    ¬ ∃ w outputs,
      main_passes .float32 histogram_slots (fun _ => 0) 0 4 BUFFER_COUNT [[0, 10, 20, 30]]
        = .ok (.finished w outputs) ∧
      w.minval = 0 ∧ w.maxval = 30 ∧ w.binsize = 7.5 ∧ w.lowval = 0 ∧ w.highval = 30 ∧
      w.scalerange = 30 ∧ outputs = [[0, 85, 170, 255]] := by
  rintro ⟨w, outputs, hrun, -, -, -, -, -, -, hout⟩
  have hreal : main_passes .float32 histogram_slots (fun _ => 0) 0 4 BUFFER_COUNT
      [[0, 10, 20, 30]]
      = .ok (.finished ⟨0, 30, 7.5, 3, 0, 22.5, 22.5⟩ [[0, 113, 226, 255]]) := by
    decide!
  rw [hreal] at hrun
  injection hrun with hrun
  injection hrun with _ hbytes
  rw [hout] at hbytes
  exact absurd hbytes (by decide)

/-- C1, amended: for every buffer size of at least one sample, the run on the single file
`[0, 10, 20, 30]` with threshold 0, 4 bins and zeroed counters ends with minimum 0,
maximum 30, bin width 7.5, `lowValue = 0`, `highValue = 22.5` (the lower edge of the last
bin), `scalerange = 22.5`, and writes the bytes `[0, 113, 226, 255]`. -/
theorem scenario1_run (buffer_count : Nat) (hC : 1 ≤ buffer_count) :
    ∃ nvals,
      main_passes .float32 histogram_slots (fun _ => 0) 0 4 buffer_count [[0, 10, 20, 30]]
        = .ok (.finished ⟨0, 30, 7.5, nvals, 0, 22.5, 22.5⟩ [[0, 113, 226, 255]]) := by
  refine ⟨3, ?_⟩
  rw [main_passes_bufcount _ _ _ _ _ _ hC]
  decide!

/-- The run of scenario 1 (C1, amended) at the default buffer size. -/
theorem scenario1_run_witness :
    1 ≤ BUFFER_COUNT ∧
    ∃ nvals,
      main_passes .float32 histogram_slots (fun _ => 0) 0 4 BUFFER_COUNT [[0, 10, 20, 30]]
        = .ok (.finished ⟨0, 30, 7.5, nvals, 0, 22.5, 22.5⟩ [[0, 113, 226, 255]]) :=
  ⟨by decide, scenario1_run BUFFER_COUNT (by decide)⟩

/-! ## Histogram total and the sample equal to the maximum -/

/-- C2, at a failing input: on the single file `[0, 10, 20, 30]` with 4 bins, the extent
`(0, 30)` of pass 1 and zeroed counters, `calculate_number_of_values` returns 3 after
`build_histogram` has processed the file, although the file holds 4 samples and none is
excluded. -/
theorem histogram_total_misses_maximum :
    pass1 [[0, 10, 20, 30]] 0 0 BUFFER_COUNT = .ok (0, 30) ∧
    (pass2 .float32 histogram_slots [[0, 10, 20, 30]] (fun _ => 0) 0 (fdiv 4 (30 - 0))
        BUFFER_COUNT >>= fun h => calculate_number_of_values histogram_slots h 4) = .ok 3 ∧
    ([[0, 10, 20, 30]].flatten.filter (fun x => !is_sentinel .float32 x)).length = 4 := by
  decide!

/-- C3, at a failing input: with 4 bins and the extent `(0, 30)`, the bin index computed
for the sample 30 is 4, and `build_histogram` on the file `[0, 10, 20, 30]` leaves the
counters 0 to 4 at `1, 1, 1, 0, 1`: the counter at index 4 has been incremented. -/
theorem maximum_sample_increments_counter_nbins :
    bin_index 0 (fdiv 4 (30 - 0)) 30 = .ok 4 ∧
    (build_histogram .float32 histogram_slots [0, 10, 20, 30] (fun _ => 0) 0
        (fdiv 4 (30 - 0)) BUFFER_COUNT).map (fun h => [h 0, h 1, h 2, h 3, h 4])
      = .ok [1, 1, 1, 0, 1] := by
  decide!

/-! ## Truncation toward zero -/

theorem c_trunc_of_nonneg {q : ℚ} (h : 0 ≤ q) : c_trunc q = ⌊q⌋ := by
  unfold c_trunc
  rw [Int.tdiv_eq_ediv (Rat.num_nonneg.mpr h) (Int.ofNat_nonneg _)]
  exact (Rat.floor_def' q).symm

theorem c_trunc_neg (q : ℚ) : c_trunc (-q) = -c_trunc q := by
  unfold c_trunc
  rw [Rat.neg_num, Rat.neg_den, Int.neg_tdiv]

theorem c_trunc_of_nonpos {q : ℚ} (h : q ≤ 0) : c_trunc q = ⌈q⌉ := by
  have h1 : c_trunc (-q) = ⌊-q⌋ := c_trunc_of_nonneg (by linarith)
  rw [c_trunc_neg, Int.floor_neg] at h1
  omega

theorem c_trunc_intCast (z : ℤ) : c_trunc (z : ℚ) = z := by
  unfold c_trunc
  rw [Rat.num_intCast, Rat.den_intCast]
  simp

theorem c_trunc_mono {a b : ℚ} (h : a ≤ b) : c_trunc a ≤ c_trunc b := by
  rcases le_total 0 a with ha | ha
  · rw [c_trunc_of_nonneg ha, c_trunc_of_nonneg (ha.trans h)]
    exact Int.floor_mono h
  · rcases le_total 0 b with hb | hb
    · rw [c_trunc_of_nonpos ha, c_trunc_of_nonneg hb]
      exact (Int.ceil_le.mpr (by simpa using ha)).trans (Int.floor_nonneg.mpr hb)
    · rw [c_trunc_of_nonpos ha, c_trunc_of_nonpos hb]
      exact Int.ceil_mono h

/-- For every bin count that is an `int` and every extent with `minval < maxval`, the bin
index of the sample `maxval` is `nbins` itself. -/
theorem bin_index_at_maximum (nbins : Int) (minval maxval : ℚ) (hN : 1 ≤ nbins)
    (hint : nbins ≤ 2147483647) (hext : minval < maxval) :
    bin_index minval (fdiv nbins (maxval - minval)) maxval = .ok nbins := by
  have hne : maxval - minval ≠ 0 := by
    intro h
    linarith
  have hval : (nbins : ℚ) / (maxval - minval) * (maxval - minval) = (nbins : ℚ) :=
    div_mul_cancel₀ _ hne
  simp only [bin_index, fdiv, hne, if_false, Option.map_some', float_to_int, hval,
    c_trunc_intCast]
  rw [if_pos ⟨by omega, hint⟩]

/-! ## The per-sample conversion -/

theorem convert_value_of_trunc (lowval scalerange x : ℚ) (t : Int) (hsr : scalerange ≠ 0)
    (ht : c_trunc (255 * ((x - lowval) / scalerange)) = t)
    (h1 : -2147483648 ≤ t) (h2 : t ≤ 2147483647) :
    convert_value lowval scalerange x
      = .ok ((if t < 0 then 0 else if t > 255 then 255 else t) % 256).toNat := by
  simp only [convert_value, fdiv, hsr, if_false, Option.map_some', float_to_int, ht]
  rw [if_pos ⟨h1, h2⟩]

theorem convert_value_undefined_of_zero (lowval x : ℚ) :
    convert_value lowval 0 x = .error .undefined_behaviour := by
  simp [convert_value, fdiv, float_to_int]

theorem convert_value_at_lowval (lowval scalerange : ℚ) (hsr : scalerange ≠ 0) :
    convert_value lowval scalerange lowval = .ok 0 := by
  have ht : c_trunc (255 * ((lowval - lowval) / scalerange)) = 0 := by
    rw [sub_self, zero_div, mul_zero]
    exact c_trunc_intCast 0
  rw [convert_value_of_trunc lowval scalerange lowval 0 hsr ht (by decide) (by decide)]
  rfl

theorem convert_value_at_highval (lowval highval : ℚ) (hwin : lowval < highval) :
    convert_value lowval (highval - lowval) highval = .ok 255 := by
  have hsr : highval - lowval ≠ 0 := by
    intro h
    linarith
  have ht : c_trunc (255 * ((highval - lowval) / (highval - lowval))) = 255 := by
    rw [div_self hsr, mul_one]
    exact c_trunc_intCast 255
  rw [convert_value_of_trunc lowval _ highval 255 hsr ht (by decide) (by decide)]
  rfl

theorem convert_value_below (lowval scalerange x : ℚ) (hsr : 0 < scalerange)
    (hx : x < lowval) (hfit : -2147483649 < 255 * ((x - lowval) / scalerange)) :
    convert_value lowval scalerange x = .ok 0 := by
  have hneg : 255 * ((x - lowval) / scalerange) ≤ 0 := by
    have : (x - lowval) / scalerange ≤ 0 :=
      div_nonpos_of_nonpos_of_nonneg (by linarith) hsr.le
    linarith
  have ht := c_trunc_of_nonpos hneg
  have h0 : ⌈255 * ((x - lowval) / scalerange)⌉ ≤ 0 := Int.ceil_le.mpr (by simpa using hneg)
  have h1 : -2147483649 < ⌈255 * ((x - lowval) / scalerange)⌉ :=
    Int.lt_ceil.mpr (by simpa using hfit)
  rw [convert_value_of_trunc lowval scalerange x _ hsr.ne' ht (by omega) (by omega)]
  congr 1
  split_ifs <;> omega

theorem convert_value_above (lowval highval x : ℚ) (hwin : lowval < highval)
    (hx : highval < x)
    (hfit : 255 * ((x - lowval) / (highval - lowval)) < 2147483648) :
    convert_value lowval (highval - lowval) x = .ok 255 := by
  have hsr : 0 < highval - lowval := by linarith
  have hbig : (255 : ℚ) ≤ 255 * ((x - lowval) / (highval - lowval)) := by
    have : 1 ≤ (x - lowval) / (highval - lowval) := by
      rw [le_div_iff₀ hsr]
      linarith
    linarith
  have ht := c_trunc_of_nonneg (le_trans (by norm_num) hbig)
  have h0 : 255 ≤ ⌊255 * ((x - lowval) / (highval - lowval))⌋ :=
    Int.le_floor.mpr (by simpa using hbig)
  have h1 : ⌊255 * ((x - lowval) / (highval - lowval))⌋ < 2147483648 :=
    Int.floor_lt.mpr (by simpa using hfit)
  rw [convert_value_of_trunc lowval _ x _ hsr.ne' ht (by omega) (by omega)]
  congr 1
  split_ifs <;> omega

/-- C5, at a failing input: for the window `[0, 1]` the sample `10000000000`, which lies
above `highValue`, has no defined conversion (its scaled value `2550000000000` is not an
`int`), so it is not mapped to 255. -/
theorem convert_value_far_above_window :
    (0 : ℚ) < 1 ∧ (1 : ℚ) < 10000000000 ∧
    convert_value 0 (1 - 0) 10000000000 = .error .undefined_behaviour := by
  decide!

/-! ## The percentile window -/

theorem to_raw_valid (m : SampleType) (x : ℚ) (hx : valid_sample m x) :
    to_raw m x = .ok x := by
  cases m with
  | float32 => rfl
  | uint16 =>
    obtain ⟨h1, h2, h3⟩ := hx
    simp only [to_raw]
    rw [if_pos ⟨h2, h3⟩, ← h1]

theorem to_raw_mono (m : SampleType) (x y r r' : ℚ) (hxy : x ≤ y)
    (hx : to_raw m x = .ok r) (hy : to_raw m y = .ok r') : r ≤ r' := by
  cases m with
  | float32 =>
    simp only [to_raw, Except.ok.injEq] at hx hy
    rw [← hx, ← hy]
    exact hxy
  | uint16 =>
    simp only [to_raw] at hx hy
    split_ifs at hx hy
    simp only [Except.ok.injEq] at hx hy
    rw [← hx, ← hy]
    exact_mod_cast c_trunc_mono hxy

theorem to_raw_between (m : SampleType) (lo hi x : ℚ) (hlo : valid_sample m lo)
    (hhi : valid_sample m hi) (h1 : lo ≤ x) (h2 : x ≤ hi) :
    ∃ r, to_raw m x = .ok r ∧ lo ≤ r ∧ r ≤ hi := by
  cases m with
  | float32 => exact ⟨x, rfl, h1, h2⟩
  | uint16 =>
    obtain ⟨a1, a2, -⟩ := hlo
    obtain ⟨b1, -, b3⟩ := hhi
    have c1 : c_trunc lo ≤ c_trunc x := c_trunc_mono h1
    have c2 : c_trunc x ≤ c_trunc hi := c_trunc_mono h2
    refine ⟨(c_trunc x : ℚ), ?_, ?_, ?_⟩
    · simp only [to_raw]
      rw [if_pos ⟨by omega, by omega⟩]
    · rw [a1]
      exact_mod_cast c1
    · rw [b1]
      exact_mod_cast c2

theorem percentile_step_inv (m : SampleType) (histogram : Int → Nat) (nvals : Nat)
    (binsize minval maxval t_low t_high : ℚ) (w : Walk) (i : Nat)
    (hbs : 0 ≤ binsize) (hmin : valid_sample m minval) (hmax : valid_sample m maxval)
    (ht : t_low ≤ t_high) (hedge : i * binsize + minval ≤ maxval)
    (hinv : walk_inv m binsize minval maxval i w) :
    ∃ w', percentile_step m histogram nvals binsize minval t_low t_high w i = .ok w' ∧
      walk_inv m binsize minval maxval (i + 1) w' := by
  obtain ⟨h1, h2, h3, h4⟩ := hinv
  have hge : minval ≤ i * binsize + minval := by
    have : 0 ≤ (i : ℚ) * binsize := mul_nonneg (Nat.cast_nonneg i) hbs
    linarith
  obtain ⟨r, hr, hr1, hr2⟩ := to_raw_between m minval maxval _ hmin hmax hge hedge
  have hlow_r : w.lowval ≤ r := h4 i (le_refl i) r hr
  have hnext : ∀ j : Nat, i + 1 ≤ j → ∀ r', to_raw m (j * binsize + minval) = .ok r' →
      r ≤ r' := by
    intro j hj r' hr'
    have hij : (i : ℚ) ≤ (j : ℚ) := by
      exact_mod_cast (Nat.le_of_succ_le hj)
    have : (i : ℚ) * binsize ≤ (j : ℚ) * binsize := mul_le_mul_of_nonneg_right hij hbs
    exact to_raw_mono m _ _ r r' (by linarith) hr hr'
  have hkeep : ∀ j : Nat, i + 1 ≤ j → ∀ r', to_raw m (j * binsize + minval) = .ok r' →
      w.lowval ≤ r' := fun j hj r' hr' => h4 j (Nat.le_of_succ_le hj) r' hr'
  unfold percentile_step
  simp only []
  generalize fadd w.pvals (fdiv (histogram (i : Int)) nvals) = p
  by_cases hl : flt p t_low = true
  · have hh : fle p t_high = true := by
      cases p with
      | none => simp [flt] at hl
      | some x =>
        simp only [flt, decide_eq_true_eq] at hl
        simp only [fle, decide_eq_true_eq]
        linarith
    simp only [hl, hh, if_true, hr]
    exact ⟨_, rfl, hr1, le_refl r, hr2, hnext⟩
  · by_cases hh : fle p t_high = true
    · simp only [hl, hh, if_true, if_false, hr]
      exact ⟨_, rfl, h1, hlow_r, hr2, hkeep⟩
    · simp only [hl, hh, if_false]
      exact ⟨_, rfl, h1, h2, h3, hkeep⟩

/-- C4: for every histogram, every count `nvals`, every bin count, every extent with
`minval ≤ maxval` whose ends are sample values, the bin width `(maxval - minval) / nbins`
and every `t_low ≤ 0.5` with `t_high = 1 - t_low`, the percentile loop of `main` ends, and
ends with `minval ≤ lowval ≤ highval ≤ maxval`. -/
theorem percentile_window_within_extent (m : SampleType) (histogram : Int → Nat)
    (nvals : Nat) (nbins : Int) (minval maxval t_low : ℚ)
    (hext : minval ≤ maxval) (hmin : valid_sample m minval) (hmax : valid_sample m maxval)
    (ht : t_low ≤ 1 / 2) :
    ∃ w, percentile_walk m histogram nvals nbins ((maxval - minval) / nbins) minval maxval
        t_low (1 - t_low) = .ok w ∧
      minval ≤ w.lowval ∧ w.lowval ≤ w.highval ∧ w.highval ≤ maxval := by
  have hbs : ∀ n : Nat, 0 < n → n ≤ nbins.toNat →
      0 ≤ (maxval - minval) / (nbins : ℚ) := by
    intro n hn hle
    have hpos : (0 : ℚ) < (nbins : ℚ) := by
      have : (0 : Int) < nbins := by omega
      exact_mod_cast this
    exact div_nonneg (by linarith) hpos.le
  have hstart : walk_inv m ((maxval - minval) / nbins) minval maxval 0
      ⟨some 0, minval, maxval⟩ ∨ nbins.toNat = 0 := by
    by_cases hz : nbins.toNat = 0
    · exact Or.inr hz
    · left
      refine ⟨le_refl _, hext, le_refl _, ?_⟩
      intro j _ r hr
      have hb := hbs 1 Nat.one_pos (by omega)
      have : 0 ≤ (j : ℚ) * ((maxval - minval) / nbins) := mul_nonneg (Nat.cast_nonneg j) hb
      exact to_raw_mono m minval _ minval r (by linarith) (to_raw_valid m minval hmin) hr
  have hloop : ∀ n : Nat, n ≤ nbins.toNat →
      ∃ w, for_each (percentile_step m histogram nvals ((maxval - minval) / nbins) minval
          t_low (1 - t_low)) (List.range n) ⟨some 0, minval, maxval⟩ = .ok w ∧
        (walk_inv m ((maxval - minval) / nbins) minval maxval n w ∨
          (n = 0 ∧ w = ⟨some 0, minval, maxval⟩)) := by
    intro n
    induction n with
    | zero =>
      intro _
      exact ⟨_, rfl, Or.inr ⟨rfl, rfl⟩⟩
    | succ n ih =>
      intro hn
      obtain ⟨w, hw, hinv⟩ := ih (Nat.le_of_succ_le hn)
      have hinv' : walk_inv m ((maxval - minval) / nbins) minval maxval n w := by
        rcases hinv with h | ⟨hn0, hw0⟩
        · exact h
        · rcases hstart with h | h
          · rw [hn0, hw0]
            exact h
          · omega
      have hb := hbs (n + 1) (Nat.succ_pos n) hn
      have hpos : (0 : ℚ) < (nbins : ℚ) := by
        have : (0 : Int) < nbins := by omega
        exact_mod_cast this
      have hedge : (n : ℚ) * ((maxval - minval) / nbins) + minval ≤ maxval := by
        have hnN : (n : ℚ) ≤ (nbins : ℚ) := by
          have : (n : Int) ≤ nbins := by omega
          exact_mod_cast this
        have hfrac : (n : ℚ) * ((maxval - minval) / nbins) ≤ maxval - minval := by
          rw [mul_div_assoc', div_le_iff₀ hpos]
          have : 0 ≤ maxval - minval := by linarith
          nlinarith
        linarith
      obtain ⟨w', hw', hinv''⟩ := percentile_step_inv m histogram nvals
        ((maxval - minval) / nbins) minval maxval t_low (1 - t_low) w n hb hmin hmax
        (by linarith) hedge hinv'
      refine ⟨w', ?_, Or.inl hinv''⟩
      rw [List.range_succ, for_each_append, hw]
      simp only [for_each, hw']
  obtain ⟨w, hw, hinv⟩ := hloop nbins.toNat (le_refl _)
  refine ⟨w, hw, ?_⟩
  rcases hinv with h | ⟨_, hw0⟩
  · exact ⟨h.1, h.2.1, h.2.2.1⟩
  · rw [hw0]
    exact ⟨le_refl _, hext, le_refl _⟩

/-- The window invariant (C4) at a 16-bit extent `(100, 200)` with 4 bins and
`t_low = 0.25`. -/
theorem percentile_window_within_extent_witness :
    (100 : ℚ) ≤ 200 ∧ valid_sample .uint16 100 ∧ valid_sample .uint16 200 ∧
    (1 / 4 : ℚ) ≤ 1 / 2 ∧
    ∃ w, percentile_walk .uint16 (fun i => if i = 0 then 3 else if i = 2 then 1 else 0) 4
        ((4 : Int)) ((200 - 100) / ((4 : Int) : ℚ)) 100 200 (1 / 4) (1 - 1 / 4) = .ok w ∧
      100 ≤ w.lowval ∧ w.lowval ≤ w.highval ∧ w.highval ≤ 200 :=
  ⟨by norm_num, by decide!, by decide!, by norm_num,
    percentile_window_within_extent .uint16 _ 4 4 100 200 (1 / 4) (by norm_num) (by decide!)
      (by decide!) (by norm_num)⟩

/-! ## A zero scaling range -/

/-- C6, as stated, fails: on the single file `[0, 1, 2]` with threshold 0 and 1 bin the
window found is `lowval = highval = 0`, so `scalerange = 0`; the run neither exits with an
error code nor writes a fixed byte, it enters pass 3 and divides by the zero `scalerange`,
which leaves the conversion of the first sample, and the run, without a defined result. -/
theorem zero_scalerange_not_trapped :
    resolve_window .float32 histogram_slots (fun _ => 0) 0 1 BUFFER_COUNT [[0, 1, 2]]
      = .ok (.window ⟨0, 2, 2, 2, 0, 0, 0⟩) ∧
    fdiv (0 - 0) 0 = none ∧
    convert_data [0, 1, 2] 0 0 BUFFER_COUNT = .error .undefined_behaviour ∧
    main_passes .float32 histogram_slots (fun _ => 0) 0 1 BUFFER_COUNT [[0, 1, 2]]
      = .error .undefined_behaviour := by
  decide!

/-- C6, amended: whenever the statistics end with a window whose `scalerange` is zero, the
run takes no separate path: it goes on to pass 3, where the conversion of the first sample
divides by zero, and so it has no defined result. -/
theorem zero_scalerange_run_undefined (m : SampleType) (slots : Nat)
    (histogram : Int → Nat) (threshold : ℚ) (nbins : Int) (buffer_count : Nat)
    (input_files : List (List ℚ)) (w : Window)
    (hres : resolve_window m slots histogram threshold nbins buffer_count input_files
      = .ok (.window w))
    (hzero : w.scalerange = 0) :
    main_passes m slots histogram threshold nbins buffer_count input_files
      = .error .undefined_behaviour := by
  unfold main_passes
  rw [hres]
  simp only []
  unfold resolve_window at hres
  split_ifs at hres with hC ht hn
  · simp at hres
  · simp at hres
  · simp at hres
  have hC1 : 1 ≤ buffer_count := Nat.one_le_iff_ne_zero.mpr hC
  cases input_files with
  | nil => simp at hres
  | cons first rest =>
    cases first with
    | nil => simp [read_first_value] at hres
    | cons v f =>
      simp only [pass3, convert_data_whole _ _ _ _ hC1, convert_buffer, hzero,
        convert_value_undefined_of_zero]

/-- The zero range (C6, amended) at two files read with a buffer of 3 samples. -/
theorem zero_scalerange_run_undefined_witness :
    resolve_window .float32 histogram_slots (fun _ => 0) 0 1 3 [[0, 1, 2], [1, 1]]
      = .ok (.window ⟨0, 2, 2, 4, 0, 0, 0⟩) ∧
    (⟨0, 2, 2, 4, 0, 0, 0⟩ : Window).scalerange = 0 ∧
    main_passes .float32 histogram_slots (fun _ => 0) 0 1 3 [[0, 1, 2], [1, 1]]
      = .error .undefined_behaviour :=
  ⟨by decide!, rfl,
    zero_scalerange_run_undefined .float32 histogram_slots (fun _ => 0) 0 1 3
      [[0, 1, 2], [1, 1]] ⟨0, 2, 2, 4, 0, 0, 0⟩ (by decide!) rfl⟩

/-! ## Pass 1: the extent -/

theorem minmax_foldl (xs : List ℚ) (a b : ℚ) :
    (xs.foldl minmax_step (a, b)).1 ≤ a ∧ b ≤ (xs.foldl minmax_step (a, b)).2 ∧
    (∀ s ∈ xs, (xs.foldl minmax_step (a, b)).1 ≤ s ∧ s ≤ (xs.foldl minmax_step (a, b)).2) ∧
    ((xs.foldl minmax_step (a, b)).1 = a ∨ (xs.foldl minmax_step (a, b)).1 ∈ xs) ∧
    ((xs.foldl minmax_step (a, b)).2 = b ∨ (xs.foldl minmax_step (a, b)).2 ∈ xs) := by
  induction xs generalizing a b with
  | nil => simp
  | cons x xs ih =>
    simp only [List.foldl_cons, minmax_step]
    obtain ⟨h1, h2, h3, h4, h5⟩ :=
      ih (if x < a then x else a) (if x > b then x else b)
    have ha1 : (if x < a then x else a) ≤ a := by
      split_ifs with h
      · exact h.le
      · exact le_refl a
    have ha2 : (if x < a then x else a) ≤ x := by
      split_ifs with h
      · exact le_refl x
      · exact not_lt.mp h
    have hb1 : b ≤ (if x > b then x else b) := by
      split_ifs with h
      · exact le_of_lt h
      · exact le_refl b
    have hb2 : x ≤ (if x > b then x else b) := by
      split_ifs with h
      · exact le_refl x
      · exact not_lt.mp h
    refine ⟨h1.trans ha1, hb1.trans h2, ?_, ?_, ?_⟩
    · intro s hs
      rcases List.mem_cons.mp hs with rfl | hs
      · exact ⟨h1.trans ha2, hb2.trans h2⟩
      · exact h3 s hs
    · rcases h4 with h | h
      · rw [h]
        split_ifs
        · exact Or.inr (List.mem_cons_self _ _)
        · exact Or.inl rfl
      · exact Or.inr (List.mem_cons_of_mem _ h)
    · rcases h5 with h | h
      · rw [h]
        split_ifs
        · exact Or.inr (List.mem_cons_self _ _)
        · exact Or.inl rfl
      · exact Or.inr (List.mem_cons_of_mem _ h)

theorem pass1_loop_whole (input_files : List (List ℚ)) (mm : ℚ × ℚ) (buffer_count : Nat)
    (hC : 1 ≤ buffer_count) :
    for_each (fun mm file => find_minmax_values file mm.1 mm.2 buffer_count) input_files mm
      = .ok (input_files.flatten.foldl minmax_step mm) := by
  have hbody : (fun (mm : ℚ × ℚ) (file : List ℚ) =>
        find_minmax_values file mm.1 mm.2 buffer_count)
      = fun mm file => .ok (file.foldl minmax_step mm) := by
    funext mm file
    rw [find_minmax_values_whole _ _ _ _ hC]
  rw [hbody]
  induction input_files generalizing mm with
  | nil => rfl
  | cons file files ih =>
    simp only [for_each, List.flatten_cons, List.foldl_append]
    exact ih _

theorem pass1_whole (input_files : List (List ℚ)) (minval maxval : ℚ) (buffer_count : Nat)
    (hC : 1 ≤ buffer_count) :
    pass1 input_files minval maxval buffer_count
      = .ok (input_files.flatten.foldl minmax_step (minval, maxval)) :=
  pass1_loop_whole input_files (minval, maxval) buffer_count hC

/-- C7: for a buffer of at least one sample and input files of which the first holds a
first sample `v`, pass 1 seeded with `minval = maxval = v` ends with `minval` the least
and `maxval` the greatest sample of all files: every sample lies between them, each is a
sample of some file, and `minval ≤ maxval`. -/
theorem extent_is_least_and_greatest (first : List ℚ) (rest : List (List ℚ)) (v : ℚ)
    (buffer_count : Nat) (hC : 1 ≤ buffer_count)
    (hseed : read_first_value first = (0, some v)) :
    ∃ minval maxval, pass1 (first :: rest) v v buffer_count = .ok (minval, maxval) ∧
      (∀ file ∈ first :: rest, ∀ s ∈ file, minval ≤ s ∧ s ≤ maxval) ∧
      (∃ file ∈ first :: rest, minval ∈ file) ∧
      (∃ file ∈ first :: rest, maxval ∈ file) ∧
      minval ≤ maxval := by
  have hv : v ∈ first := by
    cases first with
    | nil => simp [read_first_value] at hseed
    | cons x t =>
      simp only [read_first_value, Prod.mk.injEq, Option.some.injEq, true_and] at hseed
      rw [hseed]
      exact List.mem_cons_self _ _
  have hvall : v ∈ (first :: rest).flatten :=
    List.mem_flatten.mpr ⟨first, List.mem_cons_self _ _, hv⟩
  obtain ⟨h1, h2, h3, h4, h5⟩ := minmax_foldl (first :: rest).flatten v v
  refine ⟨_, _, pass1_whole _ v v buffer_count hC, ?_, ?_, ?_, h1.trans h2⟩
  · intro file hfile s hs
    exact h3 s (List.mem_flatten.mpr ⟨file, hfile, hs⟩)
  · have hmem : ((first :: rest).flatten.foldl minmax_step (v, v)).1
        ∈ (first :: rest).flatten := by
      rcases h4 with h | h
      · rw [h]
        exact hvall
      · exact h
    exact List.mem_flatten.mp hmem
  · have hmem : ((first :: rest).flatten.foldl minmax_step (v, v)).2
        ∈ (first :: rest).flatten := by
      rcases h5 with h | h
      · rw [h]
        exact hvall
      · exact h
    exact List.mem_flatten.mp hmem

/-- The extent (C7) at four files, one of them empty, read with a buffer of 2 samples. -/
theorem extent_is_least_and_greatest_witness :
    1 ≤ 2 ∧ read_first_value [3, 1, 4] = (0, some 3) ∧
    ∃ minval maxval, pass1 ([3, 1, 4] :: [[1, 5], [], [9, 2, 6]]) 3 3 2 = .ok (minval, maxval) ∧
      (∀ file ∈ [3, 1, 4] :: [[1, 5], [], [9, 2, 6]], ∀ s ∈ file, minval ≤ s ∧ s ≤ maxval) ∧
      (∃ file ∈ [3, 1, 4] :: [[1, 5], [], [9, 2, 6]], minval ∈ file) ∧
      (∃ file ∈ [3, 1, 4] :: [[1, 5], [], [9, 2, 6]], maxval ∈ file) ∧
      minval ≤ maxval :=
  ⟨by decide, by decide!,
    extent_is_least_and_greatest [3, 1, 4] [[1, 5], [], [9, 2, 6]] 3 2 (by decide)
      (by decide!)⟩

/-! ## Pass 3: one byte per sample, whatever the buffer size -/

theorem convert_buffer_eq_spec (lowval scalerange : ℚ) (xs : List ℚ) :
    convert_buffer lowval scalerange xs = spec_output_file lowval scalerange xs := by
  unfold spec_output_file
  induction xs with
  | nil => rfl
  | cons x xs ih =>
    rw [List.mapM_cons, ← ih]
    simp only [convert_buffer]
    cases convert_value lowval scalerange x with
    | error e => rfl
    | ok b =>
      cases convert_buffer lowval scalerange xs with
      | error e => rfl
      | ok bs => rfl

theorem convert_buffer_ok_iff (lowval scalerange : ℚ) (xs : List ℚ) (out : List Nat) :
    convert_buffer lowval scalerange xs = .ok out ↔
      List.Forall₂ (fun s b => convert_value lowval scalerange s = .ok b) xs out := by
  induction xs generalizing out with
  | nil =>
    simp only [convert_buffer, Except.ok.injEq, List.forall₂_nil_left_iff]
    exact eq_comm
  | cons x xs ih =>
    simp only [convert_buffer]
    constructor
    · intro h
      cases hx : convert_value lowval scalerange x with
      | error e => simp [hx] at h
      | ok b =>
        cases hxs : convert_buffer lowval scalerange xs with
        | error e => simp [hx, hxs] at h
        | ok bs =>
          simp only [hx, hxs, Except.ok.injEq] at h
          rw [← h]
          exact List.Forall₂.cons hx ((ih bs).mp hxs)
    · intro h
      cases h with
      | cons hx hrest =>
        rw [hx, (ih _).mpr hrest]

/-- C8: for every buffer capacity of at least one sample, the bytes `convert_data` writes
for a file are the output file of the specification, whatever the capacity: when every
sample has a conversion a file is written; a written file has as many bytes as the input
has samples, and byte `k` is the conversion of sample `k`. -/
theorem convert_data_chunking (buffer_count : Nat) (hC : 1 ≤ buffer_count)
    (input_file : List ℚ) (lowval scalerange : ℚ) :
    convert_data input_file lowval scalerange buffer_count
      = spec_output_file lowval scalerange input_file ∧
    ((∀ s ∈ input_file, ∃ b, convert_value lowval scalerange s = .ok b) →
      ∃ out, convert_data input_file lowval scalerange buffer_count = .ok out) ∧
    ∀ out, convert_data input_file lowval scalerange buffer_count = .ok out →
      out.length = input_file.length ∧
      ∀ (k : Nat) (hk : k < input_file.length) (hk' : k < out.length),
        convert_value lowval scalerange (input_file.get ⟨k, hk⟩) = .ok (out.get ⟨k, hk'⟩) := by
  rw [convert_data_whole _ _ _ _ hC]
  refine ⟨convert_buffer_eq_spec _ _ _, ?_, ?_⟩
  · intro hall
    induction input_file with
    | nil => exact ⟨[], rfl⟩
    | cons x xs ih =>
      obtain ⟨b, hb⟩ := hall x (List.mem_cons_self _ _)
      obtain ⟨bs, hbs⟩ := ih (fun s hs => hall s (List.mem_cons_of_mem _ hs))
      exact ⟨b :: bs, by simp only [convert_buffer, hb, hbs]⟩
  · intro out hout
    have hrel := (convert_buffer_ok_iff _ _ _ _).mp hout
    exact ⟨hrel.length_eq.symm, fun k hk hk' => hrel.get hk hk'⟩

/-- The chunked conversion (C8) at a file of 6 samples read with a buffer of 3. -/
theorem convert_data_chunking_witness :
    1 ≤ 3 ∧
    convert_data [0, 10, 20, 30, 40, -5] 0 (45 / 2) 3
      = spec_output_file 0 (45 / 2) [0, 10, 20, 30, 40, -5] ∧
    ((∀ s ∈ [0, 10, 20, 30, 40, -5], ∃ b, convert_value 0 (45 / 2) s = .ok b) →
      ∃ out, convert_data [0, 10, 20, 30, 40, -5] 0 (45 / 2) 3 = .ok out) ∧
    ∀ out, convert_data [0, 10, 20, 30, 40, -5] 0 (45 / 2) 3 = .ok out →
      out.length = [(0 : ℚ), 10, 20, 30, 40, -5].length ∧
      ∀ (k : Nat) (hk : k < [(0 : ℚ), 10, 20, 30, 40, -5].length) (hk' : k < out.length),
        convert_value 0 (45 / 2) ([(0 : ℚ), 10, 20, 30, 40, -5].get ⟨k, hk⟩)
          = .ok (out.get ⟨k, hk'⟩) :=
  ⟨by decide, convert_data_chunking 3 (by decide) [0, 10, 20, 30, 40, -5] 0 (45 / 2)⟩

/-! ## Sentinel samples of the 16-bit build -/

theorem for_each_histogram_filter (slots : Nat) (minval : ℚ) (bin_factor : Option ℚ)
    (file : List ℚ) (histogram : Int → Nat) :
    for_each (histogram_step .uint16 slots minval bin_factor) file histogram
      = for_each (histogram_step .uint16 slots minval bin_factor)
          (file.filter (fun x => decide (x ≠ 0 ∧ x ≠ 65535))) histogram := by
  induction file generalizing histogram with
  | nil => rfl
  | cons x xs ih =>
    by_cases hx : x = 0 ∨ x = 65535
    · have hp : decide (x ≠ 0 ∧ x ≠ 65535) = false := by
        rw [decide_eq_false_iff_not]
        rcases hx with h | h <;> simp [h]
      have hs : is_sentinel .uint16 x = true := by
        rcases hx with h | h <;> simp [is_sentinel, h]
      rw [List.filter_cons, hp]
      simp only [for_each, histogram_step, hs, if_true]
      exact ih histogram
    · have hx' : x ≠ 0 ∧ x ≠ 65535 := by
        constructor
        · exact fun h => hx (Or.inl h)
        · exact fun h => hx (Or.inr h)
      have hp : decide (x ≠ 0 ∧ x ≠ 65535) = true := decide_eq_true hx'
      rw [List.filter_cons, hp]
      simp only [if_true, for_each]
      cases histogram_step .uint16 slots minval bin_factor histogram x with
      | error e => rfl
      | ok h' => exact ih h'

theorem build_histogram_filter (slots : Nat) (file : List ℚ) (histogram : Int → Nat)
    (minval : ℚ) (bin_factor : Option ℚ) (bufcount : Nat) :
    build_histogram .uint16 slots file histogram minval bin_factor bufcount
      = build_histogram .uint16 slots (file.filter (fun x => decide (x ≠ 0 ∧ x ≠ 65535)))
          histogram minval bin_factor bufcount := by
  rcases Nat.eq_zero_or_pos bufcount with h0 | hpos
  · subst h0
    unfold build_histogram
    rw [fread_loop_zero _ (fun s => rfl), fread_loop_zero _ (fun s => rfl)]
  · rw [build_histogram_whole _ _ _ _ _ _ _ hpos, build_histogram_whole _ _ _ _ _ _ _ hpos]
    exact for_each_histogram_filter slots minval bin_factor file histogram

/-- C9: in the 16-bit build, for every storage, minimum, bin factor, buffer size and
starting counters, `build_histogram` gives the same result on a file and on the file
without its samples equal to 0 or 65535. -/
theorem histogram_ignores_sentinels (slots : Nat) (file : List ℚ) (histogram : Int → Nat)
    (minval : ℚ) (bin_factor : Option ℚ) (bufcount : Nat) :
    build_histogram .uint16 slots file histogram minval bin_factor bufcount
      = build_histogram .uint16 slots (file.filter (fun x => decide (x ≠ 0 ∧ x ≠ 65535)))
          histogram minval bin_factor bufcount := by
  rcases Nat.eq_zero_or_pos bufcount with h0 | hpos
  · subst h0
    unfold build_histogram
    rw [fread_loop_zero _ (fun s => rfl), fread_loop_zero _ (fun s => rfl)]
  · rw [build_histogram_whole _ _ _ _ _ _ _ hpos, build_histogram_whole _ _ _ _ _ _ _ hpos]
    exact for_each_histogram_filter slots minval bin_factor file histogram

theorem pass2_filter (slots : Nat) (input_files : List (List ℚ)) (histogram : Int → Nat)
    (minval : ℚ) (bfac : Option ℚ) (buffer_count : Nat) :
    pass2 .uint16 slots input_files histogram minval bfac buffer_count
      = pass2 .uint16 slots
          (input_files.map (List.filter (fun x => decide (x ≠ 0 ∧ x ≠ 65535))))
          histogram minval bfac buffer_count := by
  unfold pass2
  induction input_files generalizing histogram with
  | nil => rfl
  | cons file files ih =>
    simp only [List.map_cons, for_each]
    rw [← build_histogram_filter]
    cases build_histogram .uint16 slots file histogram minval bfac buffer_count with
    | error e => rfl
    | ok h' => exact ih h'

/-- C10, as stated, fails: in the 16-bit build with threshold 0 and 4 bins, the file
`[0, 100, 200, 65535]` gets the window `(0, 49151)` and the same file without the two
sentinel samples gets the window `(100, 175)`. -/
theorem sentinels_move_window :
    resolve_window .uint16 histogram_slots (fun _ => 0) 0 4 BUFFER_COUNT
        [[0, 100, 200, 65535]]
      = .ok (.window ⟨0, 65535, 16383.75, 2, 0, 49151, 49151⟩) ∧
    resolve_window .uint16 histogram_slots (fun _ => 0) 0 4 BUFFER_COUNT
        [[0, 100, 200, 65535].filter (fun x => decide (x ≠ 0 ∧ x ≠ 65535))]
      = .ok (.window ⟨100, 200, 25, 1, 100, 175, 75⟩) ∧
    ((0 : ℚ), (49151 : ℚ)) ≠ (100, 175) := by
  decide!

/-- C10, amended: in the 16-bit build, for one and the same extent `minval`, `maxval`, the
statistics that follow pass 1 (pass 2, the number of values, the percentile loop) give the
same window for the input files and for the input files without their samples equal to 0
or 65535. -/
theorem window_of_extent_ignores_sentinels (slots : Nat) (histogram : Int → Nat)
    (threshold : ℚ) (nbins : Int) (buffer_count : Nat) (input_files : List (List ℚ))
    (minval maxval : ℚ) :
    window_from_extent .uint16 slots histogram threshold nbins buffer_count input_files
        minval maxval
      = window_from_extent .uint16 slots histogram threshold nbins buffer_count
          (input_files.map (List.filter (fun x => decide (x ≠ 0 ∧ x ≠ 65535))))
          minval maxval := by
  simp only [window_from_extent, ← pass2_filter]

/-! ## What the percentile loop computes -/

theorem edge_within_extent (nbins : Int) (minval maxval : ℚ) (n : Nat)
    (hext : minval ≤ maxval) (hn : n < nbins.toNat) :
    minval ≤ (n : ℚ) * ((maxval - minval) / nbins) + minval ∧
    (n : ℚ) * ((maxval - minval) / nbins) + minval ≤ maxval := by
  have hpos : (0 : ℚ) < (nbins : ℚ) := by
    have : (0 : Int) < nbins := by omega
    exact_mod_cast this
  have hnN : (n : ℚ) ≤ (nbins : ℚ) := by
    have : (n : Int) ≤ nbins := by omega
    exact_mod_cast this
  have hrange : 0 ≤ maxval - minval := by linarith
  have hbs : 0 ≤ (maxval - minval) / (nbins : ℚ) := div_nonneg hrange hpos.le
  constructor
  · have : 0 ≤ (n : ℚ) * ((maxval - minval) / nbins) := mul_nonneg (Nat.cast_nonneg n) hbs
    linarith
  · have hfrac : (n : ℚ) * ((maxval - minval) / nbins) ≤ maxval - minval := by
      rw [mul_div_assoc', div_le_iff₀ hpos]
      nlinarith
    linarith

theorem cumulative_succ (histogram : Int → Nat) (n : Nat) :
    cumulative histogram (n + 1) = cumulative histogram n + histogram (n : Int) := by
  unfold cumulative
  exact List.sum_range_succ (fun (i : Nat) => histogram (i : Int)) n

theorem cumulative_mono (histogram : Int → Nat) {a b : Nat} (hab : a ≤ b) :
    cumulative histogram a ≤ cumulative histogram b := by
  induction b with
  | zero =>
    have : a = 0 := by omega
    rw [this]
  | succ b ih =>
    rcases Nat.eq_or_lt_of_le hab with h | h
    · rw [h]
    · have := ih (Nat.lt_succ_iff.mp h)
      rw [cumulative_succ]
      omega

theorem last_update_hit (m : SampleType) (binsize minval dflt : ℚ) (hit : Nat → Prop)
    (n : Nat) (r : ℚ) (hr : to_raw m (n * binsize + minval) = .ok r) (hn : hit n) :
    last_update m binsize minval dflt hit (n + 1) r := by
  right
  refine ⟨n, Nat.lt_succ_self n, hr, hn, ?_⟩
  intro j h1 h2
  omega

theorem last_update_miss (m : SampleType) (binsize minval dflt : ℚ) (hit : Nat → Prop)
    (n : Nat) (v : ℚ) (hprev : last_update m binsize minval dflt hit n v) (hn : ¬ hit n) :
    last_update m binsize minval dflt hit (n + 1) v := by
  rcases hprev with ⟨hv, hall⟩ | ⟨i, hi, hr, hhit, hall⟩
  · left
    refine ⟨hv, ?_⟩
    intro i hi
    rcases Nat.lt_succ_iff_lt_or_eq.mp hi with h | h
    · exact hall i h
    · rw [h]
      exact hn
  · right
    refine ⟨i, Nat.lt_succ_of_lt hi, hr, hhit, ?_⟩
    intro j h1 h2
    rcases Nat.lt_succ_iff_lt_or_eq.mp h2 with h | h
    · exact hall j h1 h
    · rw [h]
      exact hn

/-- After the bins `0 .. n - 1` the percentile loop has a state: `pvals` is the fraction
of the count that lies in these bins, `lowval` comes from the last bin whose cumulative
fraction is below `t_low`, `highval` from the last bin whose cumulative fraction is at
most `t_high`. -/
theorem percentile_walk_trace (m : SampleType) (histogram : Int → Nat) (nvals : Nat)
    (nbins : Int) (minval maxval t_low t_high : ℚ) (hnv : nvals ≠ 0)
    (hext : minval ≤ maxval) (hmin : valid_sample m minval) (hmax : valid_sample m maxval)
    (n : Nat) (hn : n ≤ nbins.toNat) :
    ∃ w, for_each (percentile_step m histogram nvals ((maxval - minval) / nbins) minval
        t_low t_high) (List.range n) ⟨some 0, minval, maxval⟩ = .ok w ∧
      w.pvals = some ((cumulative histogram n : ℚ) / nvals) ∧
      last_update m ((maxval - minval) / nbins) minval minval
        (fun i => (cumulative histogram (i + 1) : ℚ) / nvals < t_low) n w.lowval ∧
      last_update m ((maxval - minval) / nbins) minval maxval
        (fun i => (cumulative histogram (i + 1) : ℚ) / nvals ≤ t_high) n w.highval := by
  induction n with
  | zero =>
    refine ⟨_, rfl, ?_, Or.inl ⟨rfl, ?_⟩, Or.inl ⟨rfl, ?_⟩⟩
    · simp [cumulative]
    · intro i hi
      omega
    · intro i hi
      omega
  | succ n ih =>
    obtain ⟨w, hw, hp, hlow, hhigh⟩ := ih (Nat.le_of_succ_le hn)
    obtain ⟨he1, he2⟩ := edge_within_extent nbins minval maxval n hext hn
    obtain ⟨r, hr, -, -⟩ := to_raw_between m minval maxval _ hmin hmax he1 he2
    have hnvq : (nvals : ℚ) ≠ 0 := Nat.cast_ne_zero.mpr hnv
    have hpv : fadd w.pvals (fdiv (histogram (n : Int)) nvals)
        = some ((cumulative histogram (n + 1) : ℚ) / nvals) := by
      rw [hp, cumulative_succ]
      simp only [fdiv, hnvq, if_false, fadd]
      push_cast
      rw [add_div]
    rw [List.range_succ, for_each_append, hw]
    simp only [for_each, percentile_step, hpv, flt, fle, hr]
    by_cases hl : (cumulative histogram (n + 1) : ℚ) / nvals < t_low
    · by_cases hh : (cumulative histogram (n + 1) : ℚ) / nvals ≤ t_high
      · simp only [hl, hh, decide_True, if_true]
        exact ⟨_, rfl, rfl, last_update_hit _ _ _ _ _ n r hr hl,
          last_update_hit _ _ _ _ _ n r hr hh⟩
      · simp only [hl, hh, decide_True, decide_False, if_true, if_false]
        exact ⟨_, rfl, rfl, last_update_hit _ _ _ _ _ n r hr hl,
          last_update_miss _ _ _ _ _ n _ hhigh hh⟩
    · by_cases hh : (cumulative histogram (n + 1) : ℚ) / nvals ≤ t_high
      · simp only [hl, hh, decide_True, decide_False, if_true, if_false]
        exact ⟨_, rfl, rfl, last_update_miss _ _ _ _ _ n _ hlow hl,
          last_update_hit _ _ _ _ _ n r hr hh⟩
      · simp only [hl, hh, decide_False, if_false]
        exact ⟨_, rfl, rfl, last_update_miss _ _ _ _ _ n _ hlow hl,
          last_update_miss _ _ _ _ _ n _ hhigh hh⟩

theorem last_update_none (m : SampleType) (binsize minval dflt : ℚ) (hit : Nat → Prop)
    (n : Nat) (v : ℚ) (hprev : last_update m binsize minval dflt hit n v)
    (hno : ∀ i, i < n → ¬ hit i) : v = dflt := by
  rcases hprev with ⟨hv, -⟩ | ⟨i, hi, -, hhit, -⟩
  · exact hv
  · exact absurd hhit (hno i hi)

theorem last_update_at (m : SampleType) (binsize minval dflt : ℚ) (hit : Nat → Prop)
    (n : Nat) (v : ℚ) (hprev : last_update m binsize minval dflt hit n v) (i : Nat)
    (hi : i < n) (hhit : hit i) (hlast : ∀ j, i < j → j < n → ¬ hit j) :
    to_raw m (i * binsize + minval) = .ok v := by
  rcases hprev with ⟨-, hall⟩ | ⟨i', hi', hr, hhit', hall⟩
  · exact absurd hhit (hall i hi)
  · rcases Nat.lt_trichotomy i' i with h | h | h
    · exact absurd hhit (hall i h hi)
    · rw [← h]
      exact hr
    · exact absurd hhit' (hlast i' h hi')

theorem to_raw_le (m : SampleType) (x r : ℚ) (hx : m = .uint16 → 0 ≤ x)
    (hr : to_raw m x = .ok r) : r ≤ x := by
  cases m with
  | float32 =>
    simp only [to_raw, Except.ok.injEq] at hr
    rw [← hr]
  | uint16 =>
    simp only [to_raw] at hr
    split_ifs at hr
    simp only [Except.ok.injEq] at hr
    rw [← hr, c_trunc_of_nonneg (hx rfl)]
    exact Int.floor_le x

theorem valid_sample_nonneg (m : SampleType) (x : ℚ) (hx : valid_sample m x)
    (hm : m = .uint16) : 0 ≤ x := by
  subst hm
  obtain ⟨h1, h2, -⟩ := hx
  rw [h1]
  exact_mod_cast h2

theorem filtered_sum_le_cumulative (histogram : Int → Nat) (p : Nat → Bool) (i n : Nat)
    (hp : ∀ j, p j = true → j < i) :
    (((List.range n).filter p).map (fun (j : Nat) => histogram (j : Int))).sum
      ≤ cumulative histogram (min n i) := by
  induction n with
  | zero => simp
  | succ n ih =>
    rw [List.range_succ, List.filter_append, List.map_append, List.sum_append]
    by_cases hpn : p n = true
    · have hni : n < i := hp n hpn
      have h1 : min (n + 1) i = n + 1 := by omega
      have h2 : min n i = n := by omega
      rw [h1, cumulative_succ]
      rw [h2] at ih
      simp only [List.filter_cons, hpn, if_true, List.filter_nil, List.map_cons, List.map_nil,
        List.sum_cons, List.sum_nil, add_zero]
      omega
    · have hmono : cumulative histogram (min n i) ≤ cumulative histogram (min (n + 1) i) :=
        cumulative_mono histogram (by omega)
      simp only [List.filter_cons, hpn, if_false, List.filter_nil, List.map_nil,
        List.sum_nil, add_zero, Bool.false_eq_true]
      omega

theorem counted_from_add (histogram : Int → Nat) (a n : Nat) :
    (((List.range n).filter (fun (j : Nat) => decide (a ≤ j))).map
        (fun (j : Nat) => histogram (j : Int))).sum + cumulative histogram (min a n)
      = cumulative histogram n := by
  induction n with
  | zero => simp [cumulative]
  | succ n ih =>
    rw [List.range_succ, List.filter_append, List.map_append, List.sum_append]
    by_cases han : a ≤ n
    · have h1 : min a (n + 1) = a := by omega
      have h2 : min a n = a := by omega
      rw [h1, cumulative_succ]
      rw [h2] at ih
      simp only [List.filter_cons, han, decide_True, if_true, List.filter_nil, List.map_cons,
        List.map_nil, List.sum_cons, List.sum_nil, add_zero]
      omega
    · have h1 : min a (n + 1) = n + 1 := by omega
      have h2 : min a n = n := by omega
      rw [h1]
      rw [h2] at ih
      simp only [List.filter_cons, han, decide_False, if_false, List.filter_nil, List.map_nil,
        List.sum_nil, add_zero, Bool.false_eq_true]
      omega

/-! ## A histogram with all of its mass in one bin -/

theorem cumulative_single (histogram : Int → Nat) (k count nb : Nat)
    (hmass : histogram (k : Int) = count)
    (hzero : ∀ i : Nat, i < nb → i ≠ k → histogram (i : Int) = 0) (n : Nat) (hn : n ≤ nb) :
    cumulative histogram n = if n ≤ k then 0 else count := by
  induction n with
  | zero => simp [cumulative]
  | succ n ih =>
    rw [cumulative_succ, ih (Nat.le_of_succ_le hn)]
    rcases Nat.lt_trichotomy n k with h | h | h
    · rw [hzero n (by omega) (by omega)]
      rw [if_pos (by omega), if_pos (by omega)]
    · rw [h, hmass]
      rw [if_pos (le_refl k), if_neg (by omega)]
      omega
    · rw [hzero n (by omega) (by omega)]
      rw [if_neg (by omega), if_neg (by omega)]
      rfl

/-- C12, as stated, fails: with 4 bins on the extent `(0, 30)`, all 5 counted values in
bin 2 and `t_low = 0.25`, the percentile loop ends with `lowval = highval = 7.5`, the lower
edge of bin 1, and not with the fallback window `(0, 30)`. -/
theorem single_bin_window_not_fallback :
    percentile_walk .float32 (fun i => if i = 2 then 5 else 0) 5 4 ((30 - 0) / ((4 : Int) : ℚ))
        0 30 (1 / 4) (1 - 1 / 4) = .ok ⟨some 1, 7.5, 7.5⟩ ∧
    ((7.5 : ℚ), (7.5 : ℚ)) ≠ (0, 30) := by
  decide!

/-- C12, amended: for an extent with `minval < maxval` whose ends are sample values and a
histogram whose whole count lies in bin `k`, the percentile loop ends with the fallback
window `(minval, maxval)` when `k = 0` and `0 < t_low ≤ 0.5`; with `k ≥ 1` and
`0 < t_low ≤ 0.5` it ends with `lowval = highval` the lower edge of bin `k - 1`; with
`t_low = 0` it ends with `lowval = minval` and `highval` the lower edge of the last bin. -/
theorem single_bin_window (m : SampleType) (histogram : Int → Nat) (nbins : Int)
    (minval maxval t_low : ℚ) (k count : Nat)
    (hext : minval < maxval) (hmin : valid_sample m minval) (hmax : valid_sample m maxval)
    (hk : k < nbins.toNat) (hcount : 0 < count) (hmass : histogram (k : Int) = count)
    (hzero : ∀ i : Nat, i < nbins.toNat → i ≠ k → histogram (i : Int) = 0)
    (ht1 : t_low ≤ 1 / 2) :
    ∃ w, percentile_walk m histogram count nbins ((maxval - minval) / nbins) minval maxval
        t_low (1 - t_low) = .ok w ∧
      (0 < t_low → k = 0 → w.lowval = minval ∧ w.highval = maxval) ∧
      (0 < t_low → 0 < k →
        to_raw m (((k - 1 : Nat) : ℚ) * ((maxval - minval) / nbins) + minval) = .ok w.lowval ∧
        w.highval = w.lowval) ∧
      (t_low = 0 → w.lowval = minval ∧
        to_raw m (((nbins.toNat - 1 : Nat) : ℚ) * ((maxval - minval) / nbins) + minval)
          = .ok w.highval) := by
  obtain ⟨w, hw, -, hlow, hhigh⟩ := percentile_walk_trace m histogram count nbins minval
    maxval t_low (1 - t_low) (by omega) hext.le hmin hmax nbins.toNat (le_refl _)
  have hcq : (0 : ℚ) < (count : ℚ) := by exact_mod_cast hcount
  have hcum : ∀ i : Nat, i < nbins.toNat →
      (cumulative histogram (i + 1) : ℚ) / count = if i < k then 0 else 1 := by
    intro i hi
    rw [cumulative_single histogram k count nbins.toNat hmass hzero (i + 1) (by omega)]
    by_cases hik : i < k
    · rw [if_pos (by omega), if_pos hik]
      simp
    · rw [if_neg (by omega), if_neg hik]
      exact div_self hcq.ne'
  refine ⟨w, hw, ?_, ?_, ?_⟩
  · intro htpos hk0
    constructor
    · apply last_update_none _ _ _ _ _ _ _ hlow
      intro i hi
      simp only [hcum i hi, hk0, Nat.not_lt_zero, if_false]
      linarith
    · apply last_update_none _ _ _ _ _ _ _ hhigh
      intro i hi
      simp only [hcum i hi, hk0, Nat.not_lt_zero, if_false]
      linarith
  · intro htpos hkpos
    have hlow' := last_update_at _ _ _ _ _ _ _ hlow (k - 1) (by omega)
      (by
        rw [hcum (k - 1) (by omega), if_pos (by omega)]
        exact htpos)
      (by
        intro j h1 h2
        rw [hcum j h2, if_neg (by omega)]
        linarith)
    have hhigh' := last_update_at _ _ _ _ _ _ _ hhigh (k - 1) (by omega)
      (by
        rw [hcum (k - 1) (by omega), if_pos (by omega)]
        linarith)
      (by
        intro j h1 h2
        rw [hcum j h2, if_neg (by omega)]
        linarith)
    refine ⟨hlow', ?_⟩
    rw [hlow'] at hhigh'
    simp only [Except.ok.injEq] at hhigh'
    exact hhigh'.symm
  · intro ht
    constructor
    · apply last_update_none _ _ _ _ _ _ _ hlow
      intro i hi
      simp only [hcum i hi, ht]
      split_ifs <;> norm_num
    · apply last_update_at _ _ _ _ _ _ _ hhigh (nbins.toNat - 1) (by omega)
      · rw [hcum (nbins.toNat - 1) (by omega), ht]
        split_ifs <;> norm_num
      · intro j h1 h2
        omega

/-- The single-bin window (C12, amended) at 4 bins on the 16-bit extent `(100, 200)`, with
7 values in bin 2 and `t_low = 0.25`. -/
theorem single_bin_window_witness :
    (100 : ℚ) < 200 ∧ valid_sample .uint16 100 ∧ valid_sample .uint16 200 ∧
    2 < (4 : Int).toNat ∧ 0 < 7 ∧
    (fun (i : Int) => if i = 2 then 7 else 0) ((2 : Nat) : Int) = 7 ∧
    (∀ i : Nat, i < (4 : Int).toNat → i ≠ 2 →
      (fun (i : Int) => if i = 2 then 7 else 0) (i : Int) = 0) ∧
    (1 / 4 : ℚ) ≤ 1 / 2 ∧
    ∃ w, percentile_walk .uint16 (fun i => if i = 2 then 7 else 0) 7 4
        ((200 - 100) / ((4 : Int) : ℚ)) 100 200 (1 / 4) (1 - 1 / 4) = .ok w ∧
      ((0 : ℚ) < 1 / 4 → 2 = 0 → w.lowval = 100 ∧ w.highval = 200) ∧
      ((0 : ℚ) < 1 / 4 → 0 < 2 →
        to_raw .uint16 (((2 - 1 : Nat) : ℚ) * ((200 - 100) / ((4 : Int) : ℚ)) + 100)
          = .ok w.lowval ∧
        w.highval = w.lowval) ∧
      ((1 / 4 : ℚ) = 0 → w.lowval = 100 ∧
        to_raw .uint16 ((((4 : Int).toNat - 1 : Nat) : ℚ) * ((200 - 100) / ((4 : Int) : ℚ))
          + 100) = .ok w.highval) :=
  have hz : ∀ i : Nat, i < (4 : Int).toNat → i ≠ 2 →
      (fun (i : Int) => if i = 2 then 7 else 0) (i : Int) = 0 := by
    intro i _ hi
    have : (i : Int) ≠ 2 := by exact_mod_cast hi
    simp [this]
  ⟨by norm_num, by decide!, by decide!, by decide, by decide, by decide, hz, by norm_num,
    single_bin_window .uint16 (fun i => if i = 2 then 7 else 0) 4 100 200 (1 / 4) 2 7
      (by norm_num) (by decide!) (by decide!) (by decide) (by decide) (by decide) hz
      (by norm_num)⟩

/-! ## How much of the count the window clips -/

theorem counted_below_zero (histogram : Int → Nat) (nbins : Int) (binsize minval : ℚ)
    (hbs : 0 < binsize) : counted_below histogram nbins binsize minval minval = 0 := by
  unfold counted_below
  have hnone : (List.range nbins.toNat).filter
      (fun (j : Nat) => decide (((j : ℚ) + 1) * binsize + minval ≤ minval)) = [] := by
    rw [List.filter_eq_nil_iff]
    intro j _
    have hj : (0 : ℚ) < ((j : ℚ) + 1) * binsize :=
      mul_pos (by positivity) hbs
    simp only [decide_eq_true_eq, not_le]
    linarith
  rw [hnone]
  rfl

theorem counted_below_le (histogram : Int → Nat) (nbins : Int) (binsize minval lowval : ℚ)
    (i : Nat) (hbs : 0 < binsize) (hlow : lowval ≤ i * binsize + minval) :
    counted_below histogram nbins binsize minval lowval ≤ cumulative histogram i := by
  unfold counted_below
  refine le_trans (filtered_sum_le_cumulative histogram _ i nbins.toNat ?_)
    (cumulative_mono histogram (Nat.min_le_right _ _))
  intro j hj
  simp only [decide_eq_true_eq] at hj
  have h1 : ((j : ℚ) + 1) * binsize ≤ (i : ℚ) * binsize := by linarith
  have h2 : (j : ℚ) + 1 ≤ (i : ℚ) := le_of_mul_le_mul_right h1 hbs
  have h3 : j + 1 ≤ i := by exact_mod_cast h2
  omega

/-- C13, as stated, fails at `t_low = 0`: with 4 bins on the extent `(0, 30)`, the counters
`1, 1, 1, 0` and `t_low = 0`, the loop ends with `lowval = 0`, no counted value lies in a
bin below it, and the fraction 0 is not strictly less than `t_low`. -/
theorem low_side_fraction_not_strict :
    percentile_walk .float32 (fun i => if i = 0 ∨ i = 1 ∨ i = 2 then 1 else 0) 3 4
        ((30 - 0) / ((4 : Int) : ℚ)) 0 30 0 (1 - 0) = .ok ⟨some 1, 0, 22.5⟩ ∧
    cumulative (fun i => if i = 0 ∨ i = 1 ∨ i = 2 then 1 else 0) (4 : Int).toNat = 3 ∧
    counted_below (fun i => if i = 0 ∨ i = 1 ∨ i = 2 then 1 else 0) 4
        ((30 - 0) / ((4 : Int) : ℚ)) 0 0 = 0 ∧
    ¬ (((0 : Nat) : ℚ) / ((3 : Nat) : ℚ) < 0) := by
  decide!

/-- C13, amended: for a histogram of `nbins` counters with positive total, an extent with
`minval < maxval` whose ends are sample values and every `t_low`, the percentile loop ends
with a `lowval` such that the values counted in bins lying entirely below `lowval` are at
most the fraction `t_low` of the total when `0 ≤ t_low`, strictly less when `0 < t_low`, and
none at all when `lowval = minval`. -/
theorem low_side_clipping (m : SampleType) (histogram : Int → Nat) (nbins : Int)
    (minval maxval t_low : ℚ) (hext : minval < maxval) (hmin : valid_sample m minval)
    (hmax : valid_sample m maxval) (hpos : 0 < cumulative histogram nbins.toNat) :
    ∃ w, percentile_walk m histogram (cumulative histogram nbins.toNat) nbins
        ((maxval - minval) / nbins) minval maxval t_low (1 - t_low) = .ok w ∧
      (0 ≤ t_low →
        (counted_below histogram nbins ((maxval - minval) / nbins) minval w.lowval : ℚ)
          / (cumulative histogram nbins.toNat : ℚ) ≤ t_low) ∧
      (0 < t_low →
        (counted_below histogram nbins ((maxval - minval) / nbins) minval w.lowval : ℚ)
          / (cumulative histogram nbins.toNat : ℚ) < t_low) ∧
      (w.lowval = minval →
        counted_below histogram nbins ((maxval - minval) / nbins) minval w.lowval = 0) := by
  obtain ⟨w, hw, -, hlow, -⟩ := percentile_walk_trace m histogram
    (cumulative histogram nbins.toNat) nbins minval maxval t_low (1 - t_low) (by omega)
    hext.le hmin hmax nbins.toNat (le_refl _)
  have hN : 0 < nbins.toNat := by
    rcases Nat.eq_zero_or_pos nbins.toNat with h | h
    · rw [h] at hpos
      simp [cumulative] at hpos
    · exact h
  have hNq : (0 : ℚ) < (nbins : ℚ) := by
    have : (0 : Int) < nbins := by omega
    exact_mod_cast this
  have hbs : 0 < (maxval - minval) / (nbins : ℚ) := div_pos (by linarith) hNq
  have htot : (0 : ℚ) < (cumulative histogram nbins.toNat : ℚ) := by exact_mod_cast hpos
  have hkey : (counted_below histogram nbins ((maxval - minval) / nbins) minval w.lowval = 0)
      ∨ (counted_below histogram nbins ((maxval - minval) / nbins) minval w.lowval : ℚ)
          / (cumulative histogram nbins.toNat : ℚ) < t_low := by
    rcases hlow with ⟨hv, -⟩ | ⟨i, hi, hr, hhit, -⟩
    · left
      rw [hv]
      exact counted_below_zero histogram nbins _ minval hbs
    · right
      have hedge := (edge_within_extent nbins minval maxval i hext.le hi).1
      have hnonneg : m = .uint16 → 0 ≤ (i : ℚ) * ((maxval - minval) / nbins) + minval :=
        fun hm => le_trans (valid_sample_nonneg m _ hmin hm) hedge
      have hle := to_raw_le m _ _ hnonneg hr
      have hcnt := counted_below_le histogram nbins _ minval w.lowval i hbs hle
      have hmono := cumulative_mono histogram (Nat.le_succ i)
      have h1 : (counted_below histogram nbins ((maxval - minval) / nbins) minval w.lowval : ℚ)
          ≤ (cumulative histogram (i + 1) : ℚ) := by exact_mod_cast le_trans hcnt hmono
      exact lt_of_le_of_lt (div_le_div_of_nonneg_right h1 htot.le) hhit
  refine ⟨w, hw, ?_, ?_, ?_⟩
  · intro ht
    rcases hkey with h | h
    · rw [h]
      simpa using ht
    · exact h.le
  · intro ht
    rcases hkey with h | h
    · rw [h]
      simpa using ht
    · exact h
  · intro hv
    rw [hv]
    exact counted_below_zero histogram nbins _ minval hbs

/-- The low-side bound (C13, amended) at 4 bins on the 16-bit extent `(100, 200)` with the
counters `3, 0, 1, 0` and `t_low = 0.25`. -/
theorem low_side_clipping_witness :
    (100 : ℚ) < 200 ∧ valid_sample .uint16 100 ∧ valid_sample .uint16 200 ∧
    0 < cumulative (fun i => if i = 0 then 3 else if i = 2 then 1 else 0) (4 : Int).toNat ∧
    ∃ w, percentile_walk .uint16 (fun i => if i = 0 then 3 else if i = 2 then 1 else 0)
        (cumulative (fun i => if i = 0 then 3 else if i = 2 then 1 else 0) (4 : Int).toNat) 4
        ((200 - 100) / ((4 : Int) : ℚ)) 100 200 (1 / 4) (1 - 1 / 4) = .ok w ∧
      ((0 : ℚ) ≤ 1 / 4 →
        (counted_below (fun i => if i = 0 then 3 else if i = 2 then 1 else 0) 4
            ((200 - 100) / ((4 : Int) : ℚ)) 100 w.lowval : ℚ)
          / (cumulative (fun i => if i = 0 then 3 else if i = 2 then 1 else 0)
              (4 : Int).toNat : ℚ) ≤ 1 / 4) ∧
      ((0 : ℚ) < 1 / 4 →
        (counted_below (fun i => if i = 0 then 3 else if i = 2 then 1 else 0) 4
            ((200 - 100) / ((4 : Int) : ℚ)) 100 w.lowval : ℚ)
          / (cumulative (fun i => if i = 0 then 3 else if i = 2 then 1 else 0)
              (4 : Int).toNat : ℚ) < 1 / 4) ∧
      (w.lowval = 100 →
        counted_below (fun i => if i = 0 then 3 else if i = 2 then 1 else 0) 4
          ((200 - 100) / ((4 : Int) : ℚ)) 100 w.lowval = 0) :=
  ⟨by norm_num, by decide!, by decide!, by decide,
    low_side_clipping .uint16 (fun i => if i = 0 then 3 else if i = 2 then 1 else 0) 4 100 200
      (1 / 4) (by norm_num) (by decide!) (by decide!) (by decide)⟩

/-- C14, as stated, fails: the run on the single file `[0, 10, 20, 25, 30]` with threshold 0
and 4 bins ends with `highval = 22.5`; the sample 25 is counted (bin 3), lies strictly above
`highval` and below the maximum 30, and is written as byte 255, so the counted values above
`highval` are 1 of 4 and not at most the fraction 0. -/
theorem high_side_saturates_below_maximum :
    main_passes .float32 histogram_slots (fun _ => 0) 0 4 BUFFER_COUNT [[0, 10, 20, 25, 30]]
      = .ok (.finished ⟨0, 30, 7.5, 4, 0, 22.5, 22.5⟩ [[0, 113, 226, 255, 255]]) ∧
    bin_index 0 (fdiv 4 (30 - 0)) 25 = .ok 3 ∧
    (22.5 : ℚ) < 25 ∧ (25 : ℚ) < 30 ∧
    convert_value 0 22.5 25 = .ok 255 ∧
    ¬ ((1 : ℚ) / 4 ≤ 0) := by
  decide!

/-- C14, amended: for a histogram of `nbins` counters with positive total, an extent with
`minval < maxval` whose ends are sample values and every `t_low ≥ 0` with
`t_high = 1 - t_low`, the percentile loop ends with a `highval` that is either `maxval`, and
then the bins from bin 1 on hold less than the fraction `t_low` of the count, or the lower
edge of a bin `i`, and then the bins from bin `i + 2` on hold at most the fraction `t_low`
of the count. -/
theorem high_side_clipping (m : SampleType) (histogram : Int → Nat) (nbins : Int)
    (minval maxval t_low : ℚ) (hext : minval < maxval) (hmin : valid_sample m minval)
    (hmax : valid_sample m maxval) (hpos : 0 < cumulative histogram nbins.toNat)
    (ht0 : 0 ≤ t_low) :
    ∃ w, percentile_walk m histogram (cumulative histogram nbins.toNat) nbins
        ((maxval - minval) / nbins) minval maxval t_low (1 - t_low) = .ok w ∧
      ((w.highval = maxval ∧
          (counted_from histogram nbins 1 : ℚ) / (cumulative histogram nbins.toNat : ℚ)
            < t_low) ∨
        ∃ i : Nat, i < nbins.toNat ∧
          to_raw m ((i : ℚ) * ((maxval - minval) / nbins) + minval) = .ok w.highval ∧
          (counted_from histogram nbins (i + 2) : ℚ) / (cumulative histogram nbins.toNat : ℚ)
            ≤ t_low) := by
  obtain ⟨w, hw, -, -, hhigh⟩ := percentile_walk_trace m histogram
    (cumulative histogram nbins.toNat) nbins minval maxval t_low (1 - t_low) (by omega)
    hext.le hmin hmax nbins.toNat (le_refl _)
  have hN : 0 < nbins.toNat := by
    rcases Nat.eq_zero_or_pos nbins.toNat with h | h
    · rw [h] at hpos
      simp [cumulative] at hpos
    · exact h
  have htot : (0 : ℚ) < (cumulative histogram nbins.toNat : ℚ) := by exact_mod_cast hpos
  have hrest : ∀ a : Nat, a ≤ nbins.toNat →
      ¬ ((cumulative histogram a : ℚ) / (cumulative histogram nbins.toNat : ℚ) ≤ 1 - t_low) →
      (counted_from histogram nbins a : ℚ) / (cumulative histogram nbins.toNat : ℚ)
        < t_low := by
    intro a ha hnot
    have hadd := counted_from_add histogram a nbins.toNat
    rw [Nat.min_eq_left ha] at hadd
    have hq : (counted_from histogram nbins a : ℚ)
        = (cumulative histogram nbins.toNat : ℚ) - (cumulative histogram a : ℚ) := by
      unfold counted_from
      rw [← hadd]
      push_cast
      ring
    rw [hq, sub_div, div_self htot.ne']
    linarith [not_le.mp hnot]
  refine ⟨w, hw, ?_⟩
  rcases hhigh with ⟨hv, hall⟩ | ⟨i, hi, hr, -, hall⟩
  · left
    exact ⟨hv, hrest 1 hN (hall 0 hN)⟩
  · right
    refine ⟨i, hi, hr, ?_⟩
    by_cases hlast : i + 1 < nbins.toNat
    · exact (hrest (i + 2) hlast (hall (i + 1) (Nat.lt_succ_self i) hlast)).le
    · have hadd := counted_from_add histogram (i + 2) nbins.toNat
      rw [Nat.min_eq_right (by omega)] at hadd
      have hzero : counted_from histogram nbins (i + 2) = 0 := by
        unfold counted_from
        omega
      rw [hzero]
      simpa using ht0

/-- The high-side bound (C14, amended) at 4 bins on the 16-bit extent `(100, 200)` with the
counters `3, 0, 1, 0` and `t_low = 0.25`. -/
theorem high_side_clipping_witness :
    (100 : ℚ) < 200 ∧ valid_sample .uint16 100 ∧ valid_sample .uint16 200 ∧
    0 < cumulative (fun i => if i = 0 then 3 else if i = 2 then 1 else 0) (4 : Int).toNat ∧
    (0 : ℚ) ≤ 1 / 4 ∧
    ∃ w, percentile_walk .uint16 (fun i => if i = 0 then 3 else if i = 2 then 1 else 0)
        (cumulative (fun i => if i = 0 then 3 else if i = 2 then 1 else 0) (4 : Int).toNat) 4
        ((200 - 100) / ((4 : Int) : ℚ)) 100 200 (1 / 4) (1 - 1 / 4) = .ok w ∧
      ((w.highval = 200 ∧
          (counted_from (fun i => if i = 0 then 3 else if i = 2 then 1 else 0) 4 1 : ℚ)
            / (cumulative (fun i => if i = 0 then 3 else if i = 2 then 1 else 0)
                (4 : Int).toNat : ℚ) < 1 / 4) ∨
        ∃ i : Nat, i < (4 : Int).toNat ∧
          to_raw .uint16 ((i : ℚ) * ((200 - 100) / ((4 : Int) : ℚ)) + 100) = .ok w.highval ∧
          (counted_from (fun i => if i = 0 then 3 else if i = 2 then 1 else 0) 4 (i + 2) : ℚ)
            / (cumulative (fun i => if i = 0 then 3 else if i = 2 then 1 else 0)
                (4 : Int).toNat : ℚ) ≤ 1 / 4) :=
  ⟨by norm_num, by decide!, by decide!, by decide, by norm_num,
    high_side_clipping .uint16 (fun i => if i = 0 then 3 else if i = 2 then 1 else 0) 4 100 200
      (1 / 4) (by norm_num) (by decide!) (by decide!) (by decide) (by norm_num)⟩

/-! ## The number of values and the histogram -/

theorem flatMap_singleton_eq_map {α β : Type} (f : α → β) (l : List α) :
    (l.flatMap fun a => [f a]) = l.map f := by
  induction l with
  | nil => rfl
  | cons x xs ih => simp [List.flatMap_cons, ih]

theorem calculate_number_of_values_eq (slots : Nat) (histogram : Int → Nat) (nbins : Int)
    (h0 : 0 ≤ nbins) (h1 : nbins < 4294967296) (h2 : nbins.toNat ≤ slots)
    (h3 : cumulative histogram nbins.toNat < 18446744073709551616) :
    calculate_number_of_values slots histogram nbins
      = .ok (cumulative histogram nbins.toNat) := by
  have hmod : nbins % 4294967296 = nbins := Int.emod_eq_of_lt h0 h1
  have hsum : (List.map (fun i => histogram i)
      (do let a ← List.range nbins.toNat; pure (a : Int))).sum
      = cumulative histogram nbins.toNat := by
    unfold cumulative
    congr 1
    show List.map (fun i => histogram i)
      ((List.range nbins.toNat).flatMap fun a => [(a : Int)]) = _
    rw [flatMap_singleton_eq_map, List.map_map]
    rfl
  unfold calculate_number_of_values
  simp only [hmod, h2, if_true, hsum, Nat.mod_eq_of_lt h3]

/-! ## What the statistics leave behind -/

theorem for_each_invariant {σ α : Type} (body : σ → α → Except Fault σ) (P : σ → Prop)
    (hstep : ∀ s x s', P s → body s x = .ok s' → P s') (xs : List α) (s s' : σ)
    (hs : P s) (hrun : for_each body xs s = .ok s') : P s' := by
  induction xs generalizing s with
  | nil =>
    simp only [for_each, Except.ok.injEq] at hrun
    rw [← hrun]
    exact hs
  | cons x xs ih =>
    simp only [for_each] at hrun
    cases hx : body s x with
    | error e => simp [hx] at hrun
    | ok s1 =>
      rw [hx] at hrun
      exact ih s1 (hstep s x s1 hs hx) hrun

theorem to_raw_ok_valid (m : SampleType) (x r : ℚ) (hr : to_raw m x = .ok r) :
    valid_sample m r := by
  cases m with
  | float32 => trivial
  | uint16 =>
    simp only [to_raw] at hr
    split_ifs at hr with h
    simp only [Except.ok.injEq] at hr
    rw [← hr]
    simp only [valid_sample, c_trunc_intCast]
    exact ⟨trivial, h.1, h.2⟩

theorem percentile_walk_valid (m : SampleType) (histogram : Int → Nat) (nvals : Nat)
    (nbins : Int) (binsize minval maxval t_low t_high : ℚ) (w : Walk)
    (hmin : valid_sample m minval) (hmax : valid_sample m maxval)
    (hw : percentile_walk m histogram nvals nbins binsize minval maxval t_low t_high
      = .ok w) :
    valid_sample m w.lowval ∧ valid_sample m w.highval := by
  refine for_each_invariant _ (fun w => valid_sample m w.lowval ∧ valid_sample m w.highval)
    ?_ _ _ w ⟨hmin, hmax⟩ hw
  intro s i s' hs hstep
  unfold percentile_step at hstep
  simp only [] at hstep
  generalize fadd s.pvals (fdiv (histogram (i : Int)) nvals) = p at hstep
  split at hstep
  · simp at hstep
  · rename_i lowval hlow
    split at hstep
    · simp at hstep
    · rename_i highval hhigh
      simp only [Except.ok.injEq] at hstep
      rw [← hstep]
      constructor
      · split_ifs at hlow with h
        · exact to_raw_ok_valid m _ _ hlow
        · simp only [Except.ok.injEq] at hlow
          rw [← hlow]
          exact hs.1
      · split_ifs at hhigh with h
        · exact to_raw_ok_valid m _ _ hhigh
        · simp only [Except.ok.injEq] at hhigh
          rw [← hhigh]
          exact hs.2

theorem window_from_extent_ok (m : SampleType) (slots : Nat) (histogram : Int → Nat)
    (threshold : ℚ) (nbins : Int) (buffer_count : Nat) (input_files : List (List ℚ))
    (minval maxval : ℚ) (w : Window)
    (hw : window_from_extent m slots histogram threshold nbins buffer_count input_files
      minval maxval = .ok w) :
    ∃ h nvals wk,
      pass2 m slots input_files histogram minval (fdiv nbins (maxval - minval)) buffer_count
        = .ok h ∧
      calculate_number_of_values slots h nbins = .ok nvals ∧
      percentile_walk m h nvals nbins ((maxval - minval) / nbins) minval maxval threshold
        (1 - threshold) = .ok wk ∧
      w = ⟨minval, maxval, (maxval - minval) / nbins, nvals, wk.lowval, wk.highval,
        wk.highval - wk.lowval⟩ := by
  unfold window_from_extent at hw
  simp only [] at hw
  cases h2 : pass2 m slots input_files histogram minval (fdiv nbins (maxval - minval))
      buffer_count with
  | error e => simp [h2] at hw
  | ok h =>
    rw [h2] at hw
    simp only [] at hw
    cases h3 : calculate_number_of_values slots h nbins with
    | error e => simp [h3] at hw
    | ok nvals =>
      rw [h3] at hw
      simp only [] at hw
      cases h4 : percentile_walk m h nvals nbins ((maxval - minval) / nbins) minval maxval
          threshold (1 - threshold) with
      | error e => simp [h4] at hw
      | ok wk =>
        rw [h4] at hw
        simp only [Except.ok.injEq] at hw
        exact ⟨h, nvals, wk, rfl, h3, h4, hw.symm⟩

theorem resolve_window_ok (m : SampleType) (slots : Nat) (histogram : Int → Nat)
    (threshold : ℚ) (nbins : Int) (buffer_count : Nat) (input_files : List (List ℚ))
    (w : Window)
    (hres : resolve_window m slots histogram threshold nbins buffer_count input_files
      = .ok (.window w)) :
    1 ≤ buffer_count ∧ 0 ≤ threshold ∧ threshold ≤ 1 / 2 ∧ 1 ≤ nbins ∧
    ∃ v first rest minval maxval,
      input_files = (v :: first) :: rest ∧
      pass1 input_files v v buffer_count = .ok (minval, maxval) ∧
      window_from_extent m slots histogram threshold nbins buffer_count input_files
        minval maxval = .ok w := by
  unfold resolve_window at hres
  split_ifs at hres with hC ht hn
  · simp at hres
  · simp at hres
  · simp at hres
  have ht' : 0 ≤ threshold ∧ threshold ≤ 1 / 2 := by
    constructor
    · exact not_lt.mp (fun h => ht (Or.inl h))
    · exact not_lt.mp (fun h => ht (Or.inr h))
  refine ⟨Nat.one_le_iff_ne_zero.mpr hC, ht'.1, ht'.2, by omega, ?_⟩
  cases input_files with
  | nil => simp at hres
  | cons first rest =>
    cases first with
    | nil => simp [read_first_value] at hres
    | cons v t =>
      simp only [read_first_value] at hres
      cases h1 : pass1 ((v :: t) :: rest) v v buffer_count with
      | error e => simp [h1] at hres
      | ok mm =>
        obtain ⟨mn, mx⟩ := mm
        rw [h1] at hres
        simp only [] at hres
        cases h2 : window_from_extent m slots histogram threshold nbins buffer_count
            ((v :: t) :: rest) mn mx with
        | error e => simp [h2] at hres
        | ok w' =>
          rw [h2] at hres
          simp only [Except.ok.injEq, Resolved.window.injEq] at hres
          rw [← hres]
          exact ⟨v, t, rest, mn, mx, rfl, h1, h2⟩

/-! ## Sentinel samples in the output of the 16-bit build -/

theorem valid_uint16_bounds (x : ℚ) (hx : valid_sample .uint16 x) :
    x = (c_trunc x : ℚ) ∧ (0 : ℚ) ≤ x ∧ x ≤ 65535 := by
  obtain ⟨h1, h2, h3⟩ := hx
  refine ⟨h1, ?_, ?_⟩
  · rw [h1]
    exact_mod_cast h2
  · rw [h1]
    exact_mod_cast h3

theorem convert_value_uint16 (lowval highval s : ℚ) (hl : valid_sample .uint16 lowval)
    (hh : valid_sample .uint16 highval) (hs : valid_sample .uint16 s)
    (hwin : lowval < highval) :
    ∃ b, convert_value lowval (highval - lowval) s = .ok b ∧
      (s = 0 → b = 0) ∧ (s = 65535 → b = 255) := by
  obtain ⟨hl1, hl2, hl3⟩ := valid_uint16_bounds lowval hl
  obtain ⟨hh1, hh2, hh3⟩ := valid_uint16_bounds highval hh
  obtain ⟨-, hs2, hs3⟩ := valid_uint16_bounds s hs
  have hsr1 : 1 ≤ highval - lowval := by
    have hlt : (c_trunc lowval : ℚ) < (c_trunc highval : ℚ) := by
      rw [← hl1, ← hh1]
      exact hwin
    have hlt' : c_trunc lowval < c_trunc highval := by exact_mod_cast hlt
    have hle : c_trunc lowval + 1 ≤ c_trunc highval := by omega
    have hleq : (c_trunc lowval : ℚ) + 1 ≤ (c_trunc highval : ℚ) := by exact_mod_cast hle
    rw [hl1, hh1]
    linarith
  have hsr : 0 < highval - lowval := by linarith
  have hq1 : -65535 ≤ (s - lowval) / (highval - lowval) := by
    rw [le_div_iff₀ hsr]
    nlinarith
  have hq2 : (s - lowval) / (highval - lowval) ≤ 65535 := by
    rw [div_le_iff₀ hsr]
    nlinarith
  have hlo : (-16711425 : ℚ) ≤ 255 * ((s - lowval) / (highval - lowval)) := by linarith
  have hhi : 255 * ((s - lowval) / (highval - lowval)) ≤ (16711425 : ℚ) := by linarith
  have ht1 : -16711425 ≤ c_trunc (255 * ((s - lowval) / (highval - lowval))) := by
    have := c_trunc_mono (a := ((-16711425 : Int) : ℚ)) (by push_cast; exact hlo)
    rwa [c_trunc_intCast] at this
  have ht2 : c_trunc (255 * ((s - lowval) / (highval - lowval))) ≤ 16711425 := by
    have := c_trunc_mono (b := ((16711425 : Int) : ℚ)) (by push_cast; exact hhi)
    rwa [c_trunc_intCast] at this
  have hb := convert_value_of_trunc lowval (highval - lowval) s _ hsr.ne' rfl
    (by omega) (by omega)
  refine ⟨_, hb, ?_, ?_⟩
  · intro hs0
    have hzero : convert_value lowval (highval - lowval) s = .ok 0 := by
      rcases lt_or_eq_of_le (show s ≤ lowval by rw [hs0]; exact hl2) with h | h
      · exact convert_value_below lowval _ s hsr h (by linarith)
      · rw [h]
        exact convert_value_at_lowval lowval _ hsr.ne'
    rw [hb] at hzero
    simpa using hzero
  · intro hs1
    have hfull : convert_value lowval (highval - lowval) s = .ok 255 := by
      rcases lt_or_eq_of_le (show highval ≤ s by rw [hs1]; exact hh3) with h | h
      · exact convert_value_above lowval highval s hwin h (by linarith)
      · rw [← h]
        exact convert_value_at_highval lowval highval hwin
    rw [hb] at hfull
    simpa using hfull

theorem convert_buffer_forall₂ (lowval scalerange : ℚ) (R : ℚ → Nat → Prop)
    (file : List ℚ)
    (hall : ∀ s ∈ file, ∃ b, convert_value lowval scalerange s = .ok b ∧ R s b) :
    ∃ out, convert_buffer lowval scalerange file = .ok out ∧ List.Forall₂ R file out := by
  induction file with
  | nil => exact ⟨[], rfl, List.Forall₂.nil⟩
  | cons x xs ih =>
    obtain ⟨b, hb, hR⟩ := hall x (List.mem_cons_self _ _)
    obtain ⟨bs, hbs, hRs⟩ := ih (fun s hs => hall s (List.mem_cons_of_mem _ hs))
    exact ⟨b :: bs, by simp only [convert_buffer, hb, hbs], List.Forall₂.cons hR hRs⟩

theorem pass3_forall₂ (lowval scalerange : ℚ) (buffer_count : Nat) (hC : 1 ≤ buffer_count)
    (R : ℚ → Nat → Prop) (input_files : List (List ℚ))
    (hall : ∀ file ∈ input_files, ∀ s ∈ file,
      ∃ b, convert_value lowval scalerange s = .ok b ∧ R s b) :
    ∃ outputs, pass3 lowval scalerange buffer_count input_files = .ok outputs ∧
      List.Forall₂ (List.Forall₂ R) input_files outputs := by
  induction input_files with
  | nil => exact ⟨[], rfl, List.Forall₂.nil⟩
  | cons file files ih =>
    obtain ⟨out, hout, hR⟩ := convert_buffer_forall₂ lowval scalerange R file
      (hall file (List.mem_cons_self _ _))
    obtain ⟨outs, houts, hRs⟩ := ih (fun f hf => hall f (List.mem_cons_of_mem _ hf))
    refine ⟨out :: outs, ?_, List.Forall₂.cons hR hRs⟩
    simp only [pass3, convert_data_whole _ _ _ _ hC, hout, houts]

/-- C11: in the 16-bit build, for input files of 16-bit samples whose statistics end with a
window `lowval < highval`, the run writes one output file per input file, and in each a
sample equal to 0 is written as byte 0 and a sample equal to 65535 as byte 255. -/
theorem sentinels_are_converted (slots : Nat) (histogram : Int → Nat) (threshold : ℚ)
    (nbins : Int) (buffer_count : Nat) (input_files : List (List ℚ)) (w : Window)
    (hvalid : ∀ file ∈ input_files, ∀ s ∈ file, valid_sample .uint16 s)
    (hres : resolve_window .uint16 slots histogram threshold nbins buffer_count input_files
      = .ok (.window w))
    (hwin : w.lowval < w.highval) :
    ∃ outputs,
      main_passes .uint16 slots histogram threshold nbins buffer_count input_files
        = .ok (.finished w outputs) ∧
      List.Forall₂
        (List.Forall₂ (fun (s : ℚ) (b : Nat) => (s = 0 → b = 0) ∧ (s = 65535 → b = 255)))
        input_files outputs := by
  obtain ⟨hC, -, -, -, v, first, rest, mn, mx, hfiles, hp1, hwfe⟩ :=
    resolve_window_ok _ _ _ _ _ _ _ _ hres
  obtain ⟨h, nvals, wk, -, -, hwalk, hw⟩ := window_from_extent_ok _ _ _ _ _ _ _ _ _ _ hwfe
  have hvmem : v ∈ input_files.flatten := by
    rw [hfiles]
    simp
  have hvalid' : ∀ s ∈ input_files.flatten, valid_sample .uint16 s := by
    intro s hs
    obtain ⟨file, hfile, hsf⟩ := List.mem_flatten.mp hs
    exact hvalid file hfile s hsf
  have hmm : valid_sample .uint16 mn ∧ valid_sample .uint16 mx := by
    rw [pass1_whole _ _ _ _ hC] at hp1
    simp only [Except.ok.injEq] at hp1
    obtain ⟨-, -, -, h4, h5⟩ := minmax_foldl input_files.flatten v v
    rw [hp1] at h4 h5
    constructor
    · rcases h4 with h | h
      · simp only at h
        rw [h]
        exact hvalid' v hvmem
      · exact hvalid' mn h
    · rcases h5 with h | h
      · simp only at h
        rw [h]
        exact hvalid' v hvmem
      · exact hvalid' mx h
  obtain ⟨hlv, hhv⟩ := percentile_walk_valid _ _ _ _ _ _ _ _ _ wk hmm.1 hmm.2 hwalk
  have hwl : w.lowval = wk.lowval := by rw [hw]
  have hwh : w.highval = wk.highval := by rw [hw]
  have hws : w.scalerange = w.highval - w.lowval := by rw [hw]
  rw [← hwl] at hlv
  rw [← hwh] at hhv
  obtain ⟨outputs, hout, hR⟩ := pass3_forall₂ w.lowval w.scalerange buffer_count hC
    (fun (s : ℚ) (b : Nat) => (s = 0 → b = 0) ∧ (s = 65535 → b = 255)) input_files
    (by
      intro file hfile s hs
      rw [hws]
      exact convert_value_uint16 w.lowval w.highval s hlv hhv (hvalid file hfile s hs) hwin)
  refine ⟨outputs, ?_, hR⟩
  unfold main_passes
  rw [hres]
  simp only [hout]

/-- The conversion of sentinels (C11) at the 16-bit file `[0, 100, 200, 65535]` with
threshold 0 and 4 bins, whose window is `(0, 49151)`. -/
theorem sentinels_are_converted_witness :
    (∀ file ∈ [[(0 : ℚ), 100, 200, 65535]], ∀ s ∈ file, valid_sample .uint16 s) ∧
    resolve_window .uint16 histogram_slots (fun _ => 0) 0 4 BUFFER_COUNT
        [[0, 100, 200, 65535]]
      = .ok (.window ⟨0, 65535, 16383.75, 2, 0, 49151, 49151⟩) ∧
    (⟨0, 65535, 16383.75, 2, 0, 49151, 49151⟩ : Window).lowval
      < (⟨0, 65535, 16383.75, 2, 0, 49151, 49151⟩ : Window).highval ∧
    ∃ outputs,
      main_passes .uint16 histogram_slots (fun _ => 0) 0 4 BUFFER_COUNT
          [[0, 100, 200, 65535]]
        = .ok (.finished ⟨0, 65535, 16383.75, 2, 0, 49151, 49151⟩ outputs) ∧
      List.Forall₂
        (List.Forall₂ (fun (s : ℚ) (b : Nat) => (s = 0 → b = 0) ∧ (s = 65535 → b = 255)))
        [[0, 100, 200, 65535]] outputs :=
  have hv : ∀ file ∈ [[(0 : ℚ), 100, 200, 65535]], ∀ s ∈ file, valid_sample .uint16 s := by
    decide!
  ⟨hv, by decide!, by decide!,
    sentinels_are_converted histogram_slots (fun _ => 0) 0 4 BUFFER_COUNT
      [[0, 100, 200, 65535]] ⟨0, 65535, 16383.75, 2, 0, 49151, 49151⟩ hv (by decide!)
      (by decide!)⟩

/-! ## Option validation -/

theorem handle_option_keeps (c c' : Settings) (o : Opt)
    (hc : 0 ≤ c.threshold ∧ c.threshold ≤ 1 / 2 ∧ 1 ≤ c.nbins ∧ 1 ≤ c.buffer_count ∧
      c.buffer_count ≤ MAX_BUFFER)
    (ho : handle_option c o = .ok c') :
    0 ≤ c'.threshold ∧ c'.threshold ≤ 1 / 2 ∧ 1 ≤ c'.nbins ∧ 1 ≤ c'.buffer_count ∧
      c'.buffer_count ≤ MAX_BUFFER := by
  obtain ⟨h1, h2, h3, h4, h5⟩ := hc
  cases o with
  | h => simp [handle_option] at ho
  | b count =>
    simp only [handle_option] at ho
    split_ifs at ho with hz hbig
    · simp only [Except.ok.injEq] at ho
      rw [← ho]
      exact ⟨h1, h2, h3, (by decide : 1 ≤ MAX_BUFFER), le_refl _⟩
    · simp only [Except.ok.injEq] at ho
      rw [← ho]
      exact ⟨h1, h2, h3, Nat.one_le_iff_ne_zero.mpr hz, not_lt.mp hbig⟩
  | t value =>
    simp only [handle_option] at ho
    split_ifs at ho with hbad
    simp only [Except.ok.injEq] at ho
    rw [← ho]
    exact ⟨not_lt.mp (fun h => hbad (Or.inl h)), not_lt.mp (fun h => hbad (Or.inr h)), h3,
      h4, h5⟩
  | s str =>
    simp only [handle_option, Except.ok.injEq] at ho
    rw [← ho]
    exact ⟨h1, h2, h3, h4, h5⟩
  | a =>
    simp only [handle_option, Except.ok.injEq] at ho
    rw [← ho]
    exact ⟨h1, h2, h3, h4, h5⟩
  | n bins =>
    simp only [handle_option] at ho
    split_ifs at ho with hbad
    simp only [Except.ok.injEq] at ho
    rw [← ho]
    exact ⟨h1, h2, not_lt.mp hbad, h4, h5⟩
  | other => simp [handle_option] at ho

theorem handle_options_keeps (opts : List Opt) (c c' : Settings)
    (hc : 0 ≤ c.threshold ∧ c.threshold ≤ 1 / 2 ∧ 1 ≤ c.nbins ∧ 1 ≤ c.buffer_count ∧
      c.buffer_count ≤ MAX_BUFFER)
    (ho : handle_options opts c = .ok c') :
    0 ≤ c'.threshold ∧ c'.threshold ≤ 1 / 2 ∧ 1 ≤ c'.nbins ∧ 1 ≤ c'.buffer_count ∧
      c'.buffer_count ≤ MAX_BUFFER := by
  induction opts generalizing c with
  | nil =>
    simp only [handle_options, Except.ok.injEq] at ho
    rw [← ho]
    exact hc
  | cons o os ih =>
    simp only [handle_options] at ho
    cases h1 : handle_option c o with
    | error code => simp [h1] at ho
    | ok c1 =>
      rw [h1] at ho
      exact ih c1 (handle_option_keeps c c1 o hc h1) ho

theorem initial_settings_valid :
    0 ≤ initial_settings.threshold ∧ initial_settings.threshold ≤ 1 / 2 ∧
    1 ≤ initial_settings.nbins ∧ 1 ≤ initial_settings.buffer_count ∧
    initial_settings.buffer_count ≤ MAX_BUFFER := by
  decide!

/-- C15: in the option handling of `main`, a threshold `value` is accepted exactly when
`0 ≤ value ≤ 0.5` and the run returns `ERR_BAD_THRESHOLD = 9` otherwise; a bin count is
accepted exactly when it is at least 1 and a buffer count exactly when it is at least 1,
and the run returns `ERR_STUPID_CONSTRAINTS = 5` otherwise; and whenever option handling
completes, the threshold lies in `[0, 0.5]`, the bin count is at least 1 and the buffer
count lies between 1 and `MAX_BUFFER`. -/
theorem option_validation (c : Settings) (value : ℚ) (bins : Int) (count : Nat)
    (opts : List Opt) (c' : Settings) :
    ((∃ c1, handle_option c (.t value) = .ok c1) ↔ (0 ≤ value ∧ value ≤ 1 / 2)) ∧
    (¬ (0 ≤ value ∧ value ≤ 1 / 2) → handle_option c (.t value) = .error 9) ∧
    ((∃ c1, handle_option c (.n bins) = .ok c1) ↔ 1 ≤ bins) ∧
    (¬ 1 ≤ bins → handle_option c (.n bins) = .error 5) ∧
    ((∃ c1, handle_option c (.b count) = .ok c1) ↔ 1 ≤ count) ∧
    (¬ 1 ≤ count → handle_option c (.b count) = .error 5) ∧
    (handle_options opts initial_settings = .ok c' →
      0 ≤ c'.threshold ∧ c'.threshold ≤ 1 / 2 ∧ 1 ≤ c'.nbins ∧ 1 ≤ c'.buffer_count ∧
        c'.buffer_count ≤ MAX_BUFFER) := by
  have ht : (value < 0 ∨ value > 1 / 2) ↔ ¬ (0 ≤ value ∧ value ≤ 1 / 2) := by
    constructor
    · rintro (h | h) ⟨h1, h2⟩
      · exact absurd h1 (not_le.mpr h)
      · exact absurd h2 (not_le.mpr h)
    · intro h
      by_cases h0 : 0 ≤ value
      · right
        exact not_le.mp (fun h2 => h ⟨h0, h2⟩)
      · left
        exact not_le.mp h0
  refine ⟨?_, ?_, ?_, ?_, ?_, ?_, ?_⟩
  · by_cases hv : 0 ≤ value ∧ value ≤ 1 / 2
    · simp only [handle_option, if_neg (fun h => (ht.mp h) hv), hv, and_self, iff_true]
      exact ⟨_, rfl⟩
    · simp only [handle_option, if_pos (ht.mpr hv), hv, iff_false]
      rintro ⟨c1, h⟩
      simp at h
  · intro hv
    simp only [handle_option, if_pos (ht.mpr hv)]
    rfl
  · by_cases hb : 1 ≤ bins
    · simp only [handle_option, if_neg (not_lt.mpr hb), hb, iff_true]
      exact ⟨_, rfl⟩
    · simp only [handle_option, if_pos (not_le.mp hb), hb, iff_false]
      rintro ⟨c1, h⟩
      simp at h
  · intro hb
    simp only [handle_option, if_pos (not_le.mp hb)]
    rfl
  · by_cases hb : 1 ≤ count
    · have hz : count ≠ 0 := by omega
      simp only [handle_option, hz, if_false, hb, iff_true]
      split_ifs
      · exact ⟨_, rfl⟩
      · exact ⟨_, rfl⟩
    · have hz : count = 0 := by omega
      simp only [handle_option, hz, if_true, iff_false]
      constructor
      · rintro ⟨c1, h⟩
        simp at h
      · intro h
        omega
  · intro hb
    have hz : count = 0 := by omega
    simp only [handle_option, hz, if_true]
    rfl
  · exact handle_options_keeps opts initial_settings c' initial_settings_valid

/-- Option validation (C15) at the options `-t 0.25 -n 16 -b 200000000000 -a`. -/
theorem option_validation_witness :
    handle_options [.t (1 / 4), .n 16, .b 200000000000, .a] initial_settings
      = .ok ⟨MAX_BUFFER, 16, 1 / 4, PROCESSED_SUFFIX, true⟩ ∧
    (0 ≤ (⟨MAX_BUFFER, 16, 1 / 4, PROCESSED_SUFFIX, true⟩ : Settings).threshold ∧
      (⟨MAX_BUFFER, 16, 1 / 4, PROCESSED_SUFFIX, true⟩ : Settings).threshold ≤ 1 / 2 ∧
      1 ≤ (⟨MAX_BUFFER, 16, 1 / 4, PROCESSED_SUFFIX, true⟩ : Settings).nbins ∧
      1 ≤ (⟨MAX_BUFFER, 16, 1 / 4, PROCESSED_SUFFIX, true⟩ : Settings).buffer_count ∧
      (⟨MAX_BUFFER, 16, 1 / 4, PROCESSED_SUFFIX, true⟩ : Settings).buffer_count
        ≤ MAX_BUFFER) :=
  ⟨by decide!,
    (option_validation initial_settings 0 1 1 [.t (1 / 4), .n 16, .b 200000000000, .a]
      ⟨MAX_BUFFER, 16, 1 / 4, PROCESSED_SUFFIX, true⟩).2.2.2.2.2.2 (by decide!)⟩

/-! ## The histogram storage -/

/-- C20, at a failing input: the storage `main` allocates holds 1028 counters whatever the
bin count, fewer than the default 65536 bins; with the defaults
`calculate_number_of_values` reads counters outside the storage, and a run with the
defaults on a single file `[0, 1]` increments a counter outside the storage (index 65536)
and so has no defined result. -/
theorem histogram_storage_too_small :
    histogram_slots = 1028 ∧
    ¬ (DEFAULT_HISTOGRAM_BINS.toNat ≤ histogram_slots) ∧
    initial_settings.nbins = DEFAULT_HISTOGRAM_BINS ∧
    calculate_number_of_values histogram_slots (fun _ => 0) DEFAULT_HISTOGRAM_BINS
      = .error .undefined_behaviour ∧
    bin_index 0 (fdiv DEFAULT_HISTOGRAM_BINS (1 - 0)) 1 = .ok 65536 ∧
    main .float32 histogram_slots (fun _ => 0) (fun _ => none) 10 []
      [⟨"a.raw".toList, true, true, .readable [0, 1]⟩]
      = .error (.fault .undefined_behaviour) := by
  decide!

/-! ## Input files that cannot be opened or read -/

theorem fread_loop_failing_never_ok {σ : Type} (bufcount : Nat)
    (body : σ → List ℚ → Except Fault σ) (patience : Nat) (rest : List ℚ) (s r : σ) :
    fread_loop_failing bufcount body patience rest s ≠ .ok r := by
  induction patience generalizing rest s with
  | zero =>
    intro h
    simp [fread_loop_failing] at h
  | succ patience ih =>
    intro h
    simp only [fread_loop_failing] at h
    cases hb : body s (rest.take bufcount) with
    | error e => simp [hb] at h
    | ok s1 =>
      rw [hb] at h
      exact ih _ _ h

theorem fread_loop_failing_total {σ : Type} (bufcount : Nat)
    (body : σ → List ℚ → Except Fault σ) (hbody : ∀ s buffer, ∃ s', body s buffer = .ok s')
    (patience : Nat) (rest : List ℚ) (s : σ) :
    fread_loop_failing bufcount body patience rest s = .error .no_termination := by
  induction patience generalizing rest s with
  | zero => rfl
  | succ patience ih =>
    obtain ⟨s1, hs1⟩ := hbody s (rest.take bufcount)
    simp only [fread_loop_failing, hs1]
    exact ih _ _

/-- C16, at failing inputs: on a file whose reads fail, `find_minmax_values` is still in its
loop however long it is watched, and `build_histogram` and `convert_data` never return; on a
file that cannot be opened the three have no defined behaviour; and a run on two files, the
second of which fails or cannot be opened, ends neither with an exit code nor with
`OK`. -/
theorem open_or_read_failure_not_trapped :
    (∀ (patience : Nat) (samples : List ℚ) (minval maxval : ℚ) (bufcount : Nat),
      find_minmax_values_file patience (.failing samples) minval maxval bufcount
        = .error .no_termination) ∧
    (∀ (m : SampleType) (slots patience : Nat) (samples : List ℚ) (histogram : Int → Nat)
        (minval : ℚ) (bin_factor : Option ℚ) (bufcount : Nat) (r : Int → Nat),
      build_histogram_file m slots patience (.failing samples) histogram minval bin_factor
        bufcount ≠ .ok r) ∧
    (∀ (patience : Nat) (samples : List ℚ) (lowval scalerange : ℚ) (buffer_count : Nat)
        (r : List Nat),
      convert_data_file patience (.failing samples) lowval scalerange buffer_count
        ≠ .ok r) ∧
    (∀ (patience : Nat) (minval maxval : ℚ) (bufcount : Nat),
      find_minmax_values_file patience .unopenable minval maxval bufcount
        = .error .undefined_behaviour) ∧
    (∀ patience : Nat,
      main_files .float32 histogram_slots (fun _ => 0) 0 4 BUFFER_COUNT patience
        [.readable [0, 10, 20, 30], .failing [5, 15]] = .error .no_termination) ∧
    (∀ patience : Nat,
      main_files .float32 histogram_slots (fun _ => 0) 0 4 BUFFER_COUNT patience
        [.readable [0, 10, 20, 30], .unopenable] = .error .undefined_behaviour) := by
  have hfirst : find_minmax_values [0, 10, 20, 30] 0 0 BUFFER_COUNT = .ok (0, 30) := by
    decide!
  have hguard1 : ¬ (BUFFER_COUNT = 0) := by decide
  have hguard2 : ¬ ((0 : ℚ) < 0 ∨ (0 : ℚ) > 1 / 2) := by norm_num
  have hguard3 : ¬ ((4 : Int) < 1) := by decide
  refine ⟨?_, ?_, ?_, ?_, ?_, ?_⟩
  · intro patience samples minval maxval bufcount
    exact fread_loop_failing_total _ _ (fun s buffer => ⟨_, rfl⟩) _ _ _
  · intro m slots patience samples histogram minval bin_factor bufcount r
    exact fread_loop_failing_never_ok _ _ _ _ _ _
  · intro patience samples lowval scalerange buffer_count r
    exact fread_loop_failing_never_ok _ _ _ _ _ _
  · intro patience minval maxval bufcount
    rfl
  · intro patience
    have hsecond : find_minmax_values_file patience (.failing [5, 15]) 0 30 BUFFER_COUNT
        = .error .no_termination :=
      fread_loop_failing_total _ _ (fun s buffer => ⟨_, rfl⟩) _ _ _
    simp only [main_files, if_neg hguard1, if_neg hguard2, if_neg hguard3,
      read_first_value_file, read_first_value, main_after_seed, pass1_files, for_each,
      find_minmax_values_file, hfirst]
    simp only [find_minmax_values_file] at hsecond
    rw [hsecond]
  · intro patience
    simp only [main_files, if_neg hguard1, if_neg hguard2, if_neg hguard3,
      read_first_value_file, read_first_value, main_after_seed, pass1_files, for_each,
      find_minmax_values_file, hfirst]

/-! ## The first value -/

/-- C17: after option handling has accepted the settings, when the first sample of the
first input file cannot be read (the file cannot be opened, holds no whole sample, or its
first read fails) `read_first_value` returns a code other than 0 and the run returns
`ERR_FAILED_TO_OPEN_THE_FILE_DESPITE_EVERYTHING_ELSE` without entering a pass; when it can
be read, `read_first_value` returns 0 with that sample and the passes start with `minval`
and `maxval` both equal to it. -/
theorem first_value_gate (m : SampleType) (slots : Nat) (histogram : Int → Nat)
    (threshold : ℚ) (nbins : Int) (buffer_count patience : Nat) (first : InputFile)
    (rest : List InputFile) (hC : 1 ≤ buffer_count) (ht0 : 0 ≤ threshold)
    (ht1 : threshold ≤ 1 / 2) (hn : 1 ≤ nbins) :
    ((first = .unopenable ∨ first = .readable [] ∨ first = .failing []) →
      (read_first_value_file first).1 ≠ 0 ∧
      main_files m slots histogram threshold nbins buffer_count patience (first :: rest)
        = .ok (.exit ERR_FAILED_TO_OPEN_THE_FILE_DESPITE_EVERYTHING_ELSE)) ∧
    (∀ (v : ℚ) (t : List ℚ), (first = .readable (v :: t) ∨ first = .failing (v :: t)) →
      read_first_value_file first = (0, some v) ∧
      main_files m slots histogram threshold nbins buffer_count patience (first :: rest)
        = main_after_seed m slots histogram threshold nbins buffer_count patience
            (first :: rest) v v) := by
  have hg1 : ¬ (buffer_count = 0) := by omega
  have hg2 : ¬ (threshold < 0 ∨ threshold > 1 / 2) := by
    rintro (h | h)
    · exact absurd ht0 (not_le.mpr h)
    · exact absurd ht1 (not_le.mpr h)
  have hg3 : ¬ (nbins < 1) := by omega
  constructor
  · rintro (h | h | h)
    · subst h
      refine ⟨by decide, ?_⟩
      simp only [main_files, if_neg hg1, if_neg hg2, if_neg hg3, read_first_value_file]
      rfl
    · subst h
      refine ⟨by decide, ?_⟩
      simp only [main_files, if_neg hg1, if_neg hg2, if_neg hg3, read_first_value_file,
        read_first_value]
      rfl
    · subst h
      refine ⟨by decide, ?_⟩
      simp only [main_files, if_neg hg1, if_neg hg2, if_neg hg3, read_first_value_file]
      rfl
  · rintro v t (h | h)
    · subst h
      refine ⟨rfl, ?_⟩
      simp only [main_files, if_neg hg1, if_neg hg2, if_neg hg3, read_first_value_file,
        read_first_value]
    · subst h
      refine ⟨rfl, ?_⟩
      simp only [main_files, if_neg hg1, if_neg hg2, if_neg hg3, read_first_value_file]

/-- The first value (C17) at the default settings with an empty first file and a second
file. -/
theorem first_value_gate_witness :
    1 ≤ BUFFER_COUNT ∧ (0 : ℚ) ≤ THRESHOLD ∧ THRESHOLD ≤ 1 / 2 ∧
    1 ≤ DEFAULT_HISTOGRAM_BINS ∧
    (read_first_value_file (.readable [])).1 ≠ 0 ∧
    main_files .float32 histogram_slots (fun _ => 0) THRESHOLD DEFAULT_HISTOGRAM_BINS
        BUFFER_COUNT 10 (.readable [] :: [.readable [1, 2]])
      = .ok (.exit ERR_FAILED_TO_OPEN_THE_FILE_DESPITE_EVERYTHING_ELSE) :=
  ⟨by decide, by decide!, by decide!, by decide,
    (first_value_gate .float32 histogram_slots (fun _ => 0) THRESHOLD
      DEFAULT_HISTOGRAM_BINS BUFFER_COUNT 10 (.readable []) [.readable [1, 2]] (by decide)
      (by decide!) (by decide!) (by decide)).1 (Or.inr (Or.inl rfl))⟩

/-! ## Output names -/

theorem snprintf_fits (p s : List Char) :
    snprintf (5 + p.length + s.length) (p ++ s) = p ++ s := by
  unfold snprintf
  apply List.take_of_length_le
  rw [List.length_append]
  omega

theorem preflight_without_auto (vgi_files : List Char → Option (List (List Char)))
    (suffix : List Char) (on_heap : Bool) (inputs : List Input) (names : List (List Char))
    (hpre : ∀ inp ∈ inputs, inp.accessible = true ∧ inp.stat_ok = true) :
    preflight false vgi_files inputs ⟨suffix, on_heap, names⟩
      = .ok ⟨suffix, on_heap, names ++ inputs.map (fun inp => inp.path ++ suffix)⟩ := by
  induction inputs generalizing names with
  | nil => simp [preflight]
  | cons inp inps ih =>
    obtain ⟨ha, hs⟩ := hpre inp (List.mem_cons_self _ _)
    simp only [preflight, preflight_step, ha, hs, snprintf_fits, Bool.true_eq_false,
      Bool.false_eq_true, if_false]
    rw [ih _ (fun i hi => hpre i (List.mem_cons_of_mem _ hi))]
    simp

/-- C18, as stated, fails with `-a`: for the two distinct input paths `vol1` and `vol`,
whose `.vgi` files give the sizes `2 3 4` and `12 3 4`, the preflight loop builds the same
output path `vol12x3x4x8bit.raw` twice, and the run writes both outputs under it. -/
theorem auto_names_collide :
    "vol1".toList ≠ "vol".toList ∧
    (preflight true
        (fun name => if name = "vol1.vgi".toList then some ["size = 2 3 4\n".toList]
          else if name = "vol.vgi".toList then some ["size = 12 3 4\n".toList] else none)
        [⟨"vol1".toList, true, true, .readable [0, 10, 20, 30]⟩,
          ⟨"vol".toList, true, true, .readable [0, 10, 20, 30]⟩]
        ⟨PROCESSED_SUFFIX, true, []⟩).map (fun st => st.output_files)
      = .ok ["vol12x3x4x8bit.raw".toList, "vol12x3x4x8bit.raw".toList] ∧
    (main .float32 histogram_slots (fun _ => 0)
        (fun name => if name = "vol1.vgi".toList then some ["size = 2 3 4\n".toList]
          else if name = "vol.vgi".toList then some ["size = 12 3 4\n".toList] else none)
        10 [.a, .n 4, .t 0]
        [⟨"vol1".toList, true, true, .readable [0, 10, 20, 30]⟩,
          ⟨"vol".toList, true, true, .readable [0, 10, 20, 30]⟩]).map
        (fun d => d.outputs.map (fun o => o.1))
      = .ok ["vol12x3x4x8bit.raw".toList, "vol12x3x4x8bit.raw".toList] := by
  decide!

/-- C18, amended: for every input path `p` and suffix `s` the output path built is exactly
`p ++ s`, the buffer of `5 + len(p) + len(s)` bytes being large enough; and in a run
without `-a`, where one suffix serves all input files, the preflight loop gives the input
files that pass its checks one output path each, `path ++ suffix` in the order of the
input, so that distinct input paths receive distinct output paths. -/
theorem output_names_without_auto (vgi_files : List Char → Option (List (List Char)))
    (suffix : List Char) (on_heap : Bool) (inputs : List Input)
    (hpre : ∀ inp ∈ inputs, inp.accessible = true ∧ inp.stat_ok = true) :
    (∀ p s : List Char, snprintf (5 + p.length + s.length) (p ++ s) = p ++ s) ∧
    preflight false vgi_files inputs ⟨suffix, on_heap, []⟩
      = .ok ⟨suffix, on_heap, inputs.map (fun inp => inp.path ++ suffix)⟩ ∧
    (inputs.map (fun inp => inp.path ++ suffix)).length = inputs.length ∧
    ((inputs.map (fun inp => inp.path)).Nodup →
      (inputs.map (fun inp => inp.path ++ suffix)).Nodup) := by
  refine ⟨snprintf_fits, ?_, List.length_map _ _, ?_⟩
  · have h := preflight_without_auto vgi_files suffix on_heap inputs [] hpre
    simpa using h
  · intro hnodup
    have hmap : inputs.map (fun inp => inp.path ++ suffix)
        = (inputs.map (fun inp => inp.path)).map (fun p => p ++ suffix) := by
      rw [List.map_map]
      rfl
    rw [hmap]
    exact List.Nodup.map (List.append_left_injective suffix) hnodup

/-- The output names (C18, amended) at the two inputs `a.raw` and `b.raw` with the default
suffix. -/
theorem output_names_without_auto_witness :
    (∀ inp ∈ [(⟨"a.raw".toList, true, true, .readable [1]⟩ : Input),
        ⟨"b.raw".toList, true, true, .readable [2]⟩],
      inp.accessible = true ∧ inp.stat_ok = true) ∧
    preflight false (fun _ => none)
        [⟨"a.raw".toList, true, true, .readable [1]⟩,
          ⟨"b.raw".toList, true, true, .readable [2]⟩] ⟨PROCESSED_SUFFIX, true, []⟩
      = .ok ⟨PROCESSED_SUFFIX, true,
          [(⟨"a.raw".toList, true, true, .readable [1]⟩ : Input),
            ⟨"b.raw".toList, true, true, .readable [2]⟩].map
            (fun inp => inp.path ++ PROCESSED_SUFFIX)⟩ :=
  have hpre : ∀ inp ∈ [(⟨"a.raw".toList, true, true, .readable [1]⟩ : Input),
      ⟨"b.raw".toList, true, true, .readable [2]⟩],
      inp.accessible = true ∧ inp.stat_ok = true := by
    decide!
  ⟨hpre, (output_names_without_auto (fun _ => none) PROCESSED_SUFFIX true _ hpre).2.1⟩

/-- C19, at a failing input: when the `.vgi` file cannot be opened `read_update_size_vgi`
returns the literal `PROCESSED_SUFFIX`, which is not storage obtained from `malloc`; a run
with `-a` on one input file then finishes, but with a second input file the preflight loop
frees `processed_suffix`, that literal, and the run has no defined result.  For a `.vgi`
file whose first line with `size =` is `size = 1000 1000 800` the suffix returned is
`1000x1000x800x8bit.raw`. -/
theorem missing_vgi_breaks_next_file :
    read_update_size_vgi none 0 0 0 = .ok (PROCESSED_SUFFIX, false) ∧
    read_update_size_vgi (some ["{volume1}\n".toList, "size = 1000 1000 800\n".toList,
        "size = 1 2 3\n".toList]) 0 0 0 = .ok ("1000x1000x800x8bit.raw".toList, true) ∧
    main .float32 histogram_slots (fun _ => 0) (fun _ => none) 10 [.a, .n 4, .t 0]
        [⟨"a.vol".toList, true, true, .readable [0, 10, 20, 30]⟩]
      = .ok ⟨⟨0, 30, 7.5, 3, 0, 22.5, 22.5⟩,
          [("a.vol.8bit.scaled.raw".toList, [0, 113, 226, 255])]⟩ ∧
    main .float32 histogram_slots (fun _ => 0) (fun _ => none) 10 [.a, .n 4, .t 0]
        [⟨"a.vol".toList, true, true, .readable [0, 10, 20, 30]⟩,
          ⟨"b.vol".toList, true, true, .readable [0, 10, 20, 30]⟩]
      = .error (.fault .undefined_behaviour) := by
  decide!

/-! ## The size line of a `.vgi` file -/

theorem takeWhile_dropWhile_append (p : Char → Bool) (a b : List Char)
    (ha : ∀ c ∈ a, p c = true) (hb : ∀ c, b.head? = some c → p c = false) :
    (a ++ b).takeWhile p = a ∧ (a ++ b).dropWhile p = b := by
  induction a with
  | nil =>
    cases b with
    | nil => exact ⟨rfl, rfl⟩
    | cons c cs =>
      have hc : p c = false := hb c rfl
      simp [List.takeWhile, List.dropWhile, hc]
  | cons x xs ih =>
    have hx : p x = true := ha x (List.mem_cons_self _ _)
    obtain ⟨h1, h2⟩ := ih (fun c hc => ha c (List.mem_cons_of_mem _ hc))
    rw [List.cons_append, List.takeWhile_cons, List.dropWhile_cons]
    simp only [hx, if_true, h1, h2, and_self]

theorem scan_number_run (pre digits rest : List Char) (hpre : pre ≠ [])
    (hpre' : ∀ c ∈ pre, is_digit c = false) (hd : digits ≠ [])
    (hd' : ∀ c ∈ digits, is_digit c = true)
    (hrest : ∀ c, rest.head? = some c → is_digit c = false) :
    scan_number (pre ++ (digits ++ rest)) = some (digit_value digits, rest) := by
  have hhead : ∀ c, (digits ++ rest).head? = some c → (!is_digit c) = false := by
    intro c hc
    cases digits with
    | nil => exact absurd rfl hd
    | cons d ds =>
      simp only [List.cons_append, List.head?_cons, Option.some.injEq] at hc
      rw [← hc, hd' d (List.mem_cons_self _ _)]
      rfl
  obtain ⟨h1, h2⟩ := takeWhile_dropWhile_append (fun c => !is_digit c) pre (digits ++ rest)
    (fun c hc => by simp [hpre' c hc]) hhead
  obtain ⟨h3, h4⟩ := takeWhile_dropWhile_append is_digit digits rest hd' hrest
  unfold scan_number skip_non_digits
  rw [h1, h2]
  cases pre with
  | nil => exact absurd rfl hpre
  | cons c cs =>
    simp only [scan_digits, h3, h4]
    cases digits with
    | nil => exact absurd rfl hd
    | cons d ds => rfl

theorem find_first_match {α : Type} (p : α → Bool) (before after : List α) (x : α)
    (hbefore : ∀ y ∈ before, p y = false) (hx : p x = true) :
    (before ++ x :: after).find? p = some x := by
  induction before with
  | nil => simp [List.find?, hx]
  | cons y ys ih =>
    have hy : p y = false := hbefore y (List.mem_cons_self _ _)
    simp only [List.cons_append, List.find?, hy]
    exact ih (fun z hz => hbefore z (List.mem_cons_of_mem _ hz))

/-- For a `.vgi` file whose first line with `size =` is `size = X Y Z` followed by anything
that does not start with a digit, with `X`, `Y`, `Z` runs of decimal digits that denote
`int` values, `read_update_size_vgi` returns the suffix `<X>x<Y>x<Z>x8bit.raw` in storage
obtained from `malloc`. -/
theorem read_update_size_vgi_size_line (before after : List (List Char))
    (dx dy dz tail : List Char) (x y z : Int)
    (hbefore : ∀ line ∈ before, strstr_found "size =".toList line = false)
    (hdx : dx ≠ []) (hdx' : ∀ c ∈ dx, is_digit c = true)
    (hdy : dy ≠ []) (hdy' : ∀ c ∈ dy, is_digit c = true)
    (hdz : dz ≠ []) (hdz' : ∀ c ∈ dz, is_digit c = true)
    (htail : ∀ c, tail.head? = some c → is_digit c = false)
    (hx : digit_value dx ≤ 2147483647) (hy : digit_value dy ≤ 2147483647)
    (hz : digit_value dz ≤ 2147483647) :
    read_update_size_vgi
        (some (before ++
          ("size = ".toList ++ (dx ++ (" ".toList ++ (dy ++ (" ".toList ++ (dz ++ tail))))))
            :: after)) x y z
      = .ok (sprintf_size (digit_value dx) (digit_value dy) (digit_value dz), true) := by
  have hsp : ∀ c ∈ " ".toList, is_digit c = false := by decide
  have hsize : ∀ c ∈ "size = ".toList, is_digit c = false := by decide
  have hspace_head : ∀ (r : List Char) (c : Char),
      (" ".toList ++ r).head? = some c → is_digit c = false := by
    intro r c hc
    have : c = ' ' := by
      simpa using hc.symm
    rw [this]
    rfl
  have hfound : strstr_found "size =".toList
      ("size = ".toList ++ (dx ++ (" ".toList ++ (dy ++ (" ".toList ++ (dz ++ tail))))))
      = true := by
    show strstr_found "size =".toList
      ('s' :: 'i' :: 'z' :: 'e' :: ' ' :: '=' :: ' ' ::
        (dx ++ (" ".toList ++ (dy ++ (" ".toList ++ (dz ++ tail)))))) = true
    simp [strstr_found, List.isPrefixOf]
  have h1 := scan_number_run "size = ".toList dx
    (" ".toList ++ (dy ++ (" ".toList ++ (dz ++ tail)))) (by decide) hsize hdx hdx'
    (hspace_head _)
  have h2 := scan_number_run " ".toList dy (" ".toList ++ (dz ++ tail)) (by decide) hsp hdy
    hdy' (hspace_head _)
  have h3 := scan_number_run " ".toList dz tail (by decide) hsp hdz hdz' htail
  have hxi : ¬ (digit_value dx > 2147483647) := by omega
  have hyi : ¬ (digit_value dy > 2147483647) := by omega
  have hzi : ¬ (digit_value dz > 2147483647) := by omega
  simp only [read_update_size_vgi, find_first_match _ before after _ hbefore hfound,
    sscanf_size, h1, h2, h3, if_neg hxi, if_neg hyi, if_neg hzi]

/-! ## The bin index of a sample inside the extent -/

theorem bin_value_bounds (nbins : Int) (minval maxval s : ℚ) (hN : 1 ≤ nbins)
    (hext : minval < maxval) (hlo : minval ≤ s) (hhi : s ≤ maxval) :
    0 ≤ (nbins : ℚ) / (maxval - minval) * (s - minval) ∧
    (nbins : ℚ) / (maxval - minval) * (s - minval) ≤ nbins ∧
    ((nbins : ℚ) / (maxval - minval) * (s - minval) = nbins ↔ s = maxval) := by
  have hr : 0 < maxval - minval := by linarith
  have hNq : (0 : ℚ) < nbins := by exact_mod_cast (by omega : 0 < nbins)
  have hf : 0 < (nbins : ℚ) / (maxval - minval) := div_pos hNq hr
  have hmax : (nbins : ℚ) / (maxval - minval) * (maxval - minval) = nbins :=
    div_mul_cancel₀ _ hr.ne'
  refine ⟨mul_nonneg hf.le (by linarith), ?_, ?_⟩
  · calc (nbins : ℚ) / (maxval - minval) * (s - minval)
        ≤ (nbins : ℚ) / (maxval - minval) * (maxval - minval) :=
          mul_le_mul_of_nonneg_left (by linarith) hf.le
      _ = nbins := hmax
  · constructor
    · intro h
      have := mul_left_cancel₀ hf.ne' (h.trans hmax.symm)
      linarith
    · intro h
      rw [h]
      exact hmax

/-- C21: for every bin count `nbins >= 1` (a value of the `int` variable `nbins`), every
extent with `minval < maxval` and every sample `s` with `minval <= s <= maxval`, the
statement `bin = (int)(bin_factor * (s - minval))` of `build_histogram`, with the
`bin_factor = nbins / (maxval - minval)` that `main` passes, yields a defined index `bin`
with `0 <= bin`; for `s < maxval` the index is at most `nbins - 1`, so the increment
`histogram[bin]++` stays inside any storage of at least `nbins` counters; and the index is
`nbins` exactly when `s = maxval`. -/
theorem bin_index_inside_extent (nbins : Int) (minval maxval s : ℚ) (hN : 1 ≤ nbins)
    (hint : nbins ≤ 2147483647) (hext : minval < maxval) (hlo : minval ≤ s)
    (hhi : s ≤ maxval) :
    ∃ bin : Int, bin_index minval (fdiv nbins (maxval - minval)) s = .ok bin ∧
      0 ≤ bin ∧
      (s < maxval → bin ≤ nbins - 1) ∧
      (s < maxval → ∀ (slots : Nat) (histogram : Int → Nat), nbins ≤ (slots : Int) →
        histogram_incr slots histogram bin
          = .ok (Function.update histogram bin
              ((histogram bin + 1) % 18446744073709551616))) ∧
      (bin = nbins ↔ s = maxval) := by
  have hne : maxval - minval ≠ 0 := by
    intro h
    linarith
  obtain ⟨h0, h1, h2⟩ := bin_value_bounds nbins minval maxval s hN hext hlo hhi
  have ht := c_trunc_of_nonneg h0
  have hf0 : 0 ≤ ⌊(nbins : ℚ) / (maxval - minval) * (s - minval)⌋ := Int.floor_nonneg.mpr h0
  have hfN : ⌊(nbins : ℚ) / (maxval - minval) * (s - minval)⌋ ≤ nbins :=
    Int.floor_le_iff.mpr (by linarith)
  have hlt : s < maxval → ⌊(nbins : ℚ) / (maxval - minval) * (s - minval)⌋ ≤ nbins - 1 := by
    intro hs
    have hne' : (nbins : ℚ) / (maxval - minval) * (s - minval) ≠ nbins :=
      fun h => (ne_of_lt hs) (h2.mp h)
    have hlt' : (nbins : ℚ) / (maxval - minval) * (s - minval) < nbins :=
      lt_of_le_of_ne h1 hne'
    have := Int.floor_lt.mpr hlt'
    omega
  refine ⟨⌊(nbins : ℚ) / (maxval - minval) * (s - minval)⌋, ?_, hf0, hlt, ?_, ?_⟩
  · simp only [bin_index, fdiv, hne, if_false, Option.map_some', float_to_int, ht]
    rw [if_pos ⟨by omega, by omega⟩]
  · intro hs slots histogram hslots
    have := hlt hs
    unfold histogram_incr
    rw [if_pos ⟨hf0, by omega⟩]
  · constructor
    · intro h
      by_contra hs
      have := hlt (lt_of_le_of_ne hhi hs)
      omega
    · intro h
      rw [h2.mpr h]
      exact Int.floor_intCast nbins

/-- The bin index (C21) of the samples 25 and 30 for 4 bins on the extent `(0, 30)`: the
index of 25 is defined, at least 0, at most 3, the increment of its counter is defined in
a storage of 4 counters, and it is not 4. -/
theorem bin_index_inside_extent_witness :
    (1 : Int) ≤ 4 ∧ (4 : Int) ≤ 2147483647 ∧ (0 : ℚ) < 30 ∧ (0 : ℚ) ≤ 25 ∧ (25 : ℚ) ≤ 30 ∧
    ∃ bin : Int, bin_index 0 (fdiv ((4 : Int) : ℚ) (30 - 0)) 25 = .ok bin ∧
      0 ≤ bin ∧
      ((25 : ℚ) < 30 → bin ≤ 4 - 1) ∧
      ((25 : ℚ) < 30 → ∀ (slots : Nat) (histogram : Int → Nat), (4 : Int) ≤ (slots : Int) →
        histogram_incr slots histogram bin
          = .ok (Function.update histogram bin
              ((histogram bin + 1) % 18446744073709551616))) ∧
      (bin = 4 ↔ (25 : ℚ) = 30) :=
  ⟨by decide, by decide, by norm_num, by norm_num, by norm_num,
    bin_index_inside_extent 4 0 30 25 (by decide) (by decide) (by norm_num) (by norm_num)
      (by norm_num)⟩

/-! ## Order of the converted bytes -/

theorem convert_value_ok_trunc (lowval scalerange x : ℚ) (a : Nat)
    (h : convert_value lowval scalerange x = .ok a) :
    scalerange ≠ 0 ∧
    -2147483648 ≤ c_trunc (255 * ((x - lowval) / scalerange)) ∧
    c_trunc (255 * ((x - lowval) / scalerange)) ≤ 2147483647 ∧
    (a : Int) = (if c_trunc (255 * ((x - lowval) / scalerange)) < 0 then 0
      else if c_trunc (255 * ((x - lowval) / scalerange)) > 255 then 255
      else c_trunc (255 * ((x - lowval) / scalerange))) := by
  by_cases hsr : scalerange = 0
  · rw [hsr, convert_value_undefined_of_zero] at h
    cases h
  · by_cases hr : -2147483648 ≤ c_trunc (255 * ((x - lowval) / scalerange)) ∧
        c_trunc (255 * ((x - lowval) / scalerange)) ≤ 2147483647
    · rw [convert_value_of_trunc lowval scalerange x _ hsr rfl hr.1 hr.2] at h
      have ha := Except.ok.inj h
      refine ⟨hsr, hr.1, hr.2, ?_⟩
      rw [← ha]
      split_ifs <;> omega
    · simp only [convert_value, fdiv, hsr, if_false, Option.map_some', float_to_int,
        if_neg hr] at h
      cases h

/-- Every byte the conversion yields is at most 255. -/
theorem convert_value_le_255 (lowval scalerange x : ℚ) (a : Nat)
    (h : convert_value lowval scalerange x = .ok a) : a ≤ 255 := by
  obtain ⟨-, -, -, ha⟩ := convert_value_ok_trunc lowval scalerange x a h
  have : (a : Int) ≤ 255 := by
    rw [ha]
    split_ifs <;> omega
  omega

/-- For a positive scaling range the conversion keeps the order of two samples whenever
both conversions are defined. -/
theorem convert_value_mono (lowval scalerange s1 s2 : ℚ) (a b : Nat) (hsr : 0 < scalerange)
    (hle : s1 ≤ s2) (h1 : convert_value lowval scalerange s1 = .ok a)
    (h2 : convert_value lowval scalerange s2 = .ok b) : a ≤ b := by
  obtain ⟨-, -, -, ha⟩ := convert_value_ok_trunc lowval scalerange s1 a h1
  obtain ⟨-, -, -, hb⟩ := convert_value_ok_trunc lowval scalerange s2 b h2
  have hq : 255 * ((s1 - lowval) / scalerange) ≤ 255 * ((s2 - lowval) / scalerange) := by
    have : (s1 - lowval) / scalerange ≤ (s2 - lowval) / scalerange :=
      div_le_div_of_nonneg_right (by linarith) hsr.le
    linarith
  have ht := c_trunc_mono hq
  have : (a : Int) ≤ (b : Int) := by
    rw [ha, hb]
    split_ifs <;> omega
  omega

/-- The conversion of a sample is defined when its scaled value is within the `int`
range. -/
theorem convert_value_defined (lowval scalerange x : ℚ) (hsr : scalerange ≠ 0)
    (hlo : -2147483648 ≤ 255 * ((x - lowval) / scalerange))
    (hhi : 255 * ((x - lowval) / scalerange) ≤ 2147483647) :
    ∃ a, convert_value lowval scalerange x = .ok a := by
  have ht1 : -2147483648 ≤ c_trunc (255 * ((x - lowval) / scalerange)) := by
    have := c_trunc_mono (a := ((-2147483648 : Int) : ℚ)) (by push_cast; exact hlo)
    rwa [c_trunc_intCast] at this
  have ht2 : c_trunc (255 * ((x - lowval) / scalerange)) ≤ 2147483647 := by
    have := c_trunc_mono (b := ((2147483647 : Int) : ℚ)) (by push_cast; exact hhi)
    rwa [c_trunc_intCast] at this
  exact ⟨_, convert_value_of_trunc lowval scalerange x _ hsr rfl ht1 ht2⟩

/-- C22, at a failing input: with `lowval = 100` and `scalerange = 50` the sample 150 is
converted to 255 and the sample 100 to 0, but the larger sample `1000000000` and the
smaller sample `-1000000000` have no defined conversion (their scaled values
`5099999490` and `-5100000510` are not `int` values), so the conversion assigns them no
byte that keeps the order. -/
theorem conversion_order_lost_beyond_int :
    (0 : ℚ) < 50 ∧
    (150 : ℚ) ≤ 1000000000 ∧
    convert_value 100 50 150 = .ok 255 ∧
    convert_value 100 50 1000000000 = .error .undefined_behaviour ∧
    (-1000000000 : ℚ) ≤ 100 ∧
    convert_value 100 50 100 = .ok 0 ∧
    convert_value 100 50 (-1000000000) = .error .undefined_behaviour := by
  decide!

/-! ## Stripping the extension -/

theorem strip_ext_scan_none (fname : List Char) :
    ∀ e : Nat, (∀ i, 1 ≤ i → i ≤ e → is_separator (fname.getD i (Char.ofNat 0)) = false) →
      strip_ext_scan fname e = 0 := by
  intro e
  induction e with
  | zero =>
    intro _
    rfl
  | succ e ih =>
    intro h
    have h1 := h (e + 1) (by omega) (le_refl _)
    simp only [strip_ext_scan, h1, Bool.false_eq_true, if_false]
    exact ih (fun i hi1 hi2 => h i hi1 (by omega))

theorem strip_ext_scan_last (fname : List Char) (k : Nat) (hk : 1 ≤ k)
    (hsep : is_separator (fname.getD k (Char.ofNat 0)) = true) :
    ∀ e : Nat, k ≤ e →
      (∀ i, k < i → i ≤ e → is_separator (fname.getD i (Char.ofNat 0)) = false) →
      strip_ext_scan fname e = k := by
  intro e
  induction e with
  | zero =>
    intro hke
    omega
  | succ e ih =>
    intro hke hafter
    rcases Nat.lt_or_ge k (e + 1) with hlt | hge
    · have h1 := hafter (e + 1) hlt (le_refl _)
      simp only [strip_ext_scan, h1, Bool.false_eq_true, if_false]
      exact ih (by omega) (fun i hi1 hi2 => hafter i hi1 (by omega))
    · have hke' : k = e + 1 := by omega
      rw [hke'] at hsep
      simp only [strip_ext_scan, hsep, if_true]
      exact hke'.symm

theorem getD_no_separator (post : List Char) (h : ∀ c ∈ post, is_separator c = false)
    (j : Nat) : is_separator (post.getD j (Char.ofNat 0)) = false := by
  rcases Nat.lt_or_ge j post.length with hj | hj
  · rw [List.getD_eq_getElem _ _ hj]
    exact h _ (List.getElem_mem hj)
  · rw [List.getD_eq_default _ _ hj]
    decide

theorem getD_at_split (pre : List Char) (p : Char) (rest : List Char) :
    (pre ++ p :: rest).getD pre.length (Char.ofNat 0) = p := by
  rw [List.getD_append_right _ _ _ _ (le_refl _), Nat.sub_self, List.getD_cons_zero]

theorem getD_after_split (pre : List Char) (p : Char) (rest : List Char) (n : Nat) :
    (pre ++ p :: rest).getD (pre.length + 1 + n) (Char.ofNat 0)
      = rest.getD n (Char.ofNat 0) := by
  rw [List.getD_append_right _ _ _ _ (by omega)]
  have : pre.length + 1 + n - pre.length = n + 1 := by omega
  rw [this, List.getD_cons_succ]

/-- The loop of `strip_ext` stops at the last of the characters `.`, `\` and `/` when that
character is not the first of the string. -/
theorem strip_ext_scan_split (pre post : List Char) (p c : Char)
    (hc : is_separator c = true) (hpost : ∀ x ∈ post, is_separator x = false) :
    strip_ext_scan (pre ++ p :: c :: post) (pre ++ p :: c :: post).length
      = pre.length + 1 := by
  apply strip_ext_scan_last _ _ (by omega)
  · have := getD_after_split pre p (c :: post) 0
    rw [Nat.add_zero] at this
    rw [this, List.getD_cons_zero]
    exact hc
  · simp only [List.length_append, List.length_cons]
    omega
  · intro i hi1 _
    have hi : i = pre.length + 1 + (i - pre.length - 2 + 1) := by omega
    rw [hi, getD_after_split, List.getD_cons_succ]
    exact getD_no_separator post hpost _

/-- The loop of `strip_ext` runs down to the first character when none of the characters
after the first is `.`, `\` or `/`. -/
theorem strip_ext_scan_head (c : Char) (post : List Char)
    (hpost : ∀ x ∈ post, is_separator x = false) :
    strip_ext_scan (c :: post) (c :: post).length = 0 := by
  apply strip_ext_scan_none
  intro i hi1 _
  have hi : i = (i - 1) + 1 := by omega
  rw [hi, List.getD_cons_succ]
  exact getD_no_separator post hpost _

/-- Every path is empty, or has no `.`, `\` or `/` after its first character, or has a
last such character that is not its first character. -/
theorem last_separator_cases (fname : List Char) :
    fname = [] ∨
    (∃ c post, fname = c :: post ∧ ∀ x ∈ post, is_separator x = false) ∨
    (∃ pre p c post, fname = pre ++ p :: c :: post ∧ is_separator c = true ∧
      ∀ x ∈ post, is_separator x = false) := by
  induction fname with
  | nil => exact Or.inl rfl
  | cons x xs ih =>
    right
    rcases ih with h | ⟨c, post, h, hpost⟩ | ⟨pre, p, c, post, h, hc, hpost⟩
    · left
      refine ⟨x, [], by rw [h], ?_⟩
      intro y hy
      cases hy
    · by_cases hc : is_separator c = true
      · right
        exact ⟨[], x, c, post, by rw [h]; rfl, hc, hpost⟩
      · left
        refine ⟨x, c :: post, by rw [h], ?_⟩
        intro y hy
        rcases List.mem_cons.mp hy with hy | hy
        · rw [hy]
          simpa using hc
        · exact hpost y hy
    · right
      exact ⟨x :: pre, p, c, post, by rw [h]; rfl, hc, hpost⟩

/-- C23: `strip_ext` leaves a prefix of the path.  When the last of the characters `.`,
`\` and `/` of the path is a `.` that has a character `p` before it, and `p` is neither
`/` nor `\`, the result is the path cut just before that `.`.  In every other case the
path is unchanged: when that `.` comes right after `/` or `\`; when the last of the three
characters is `/` or `\`; when no character after the first is one of the three (so that
the path has none of them, or only as its first character); and when the path is
empty. -/
theorem strip_ext_cuts_last_extension :
    (∀ fname : List Char, strip_ext fname <+: fname) ∧
    (∀ (pre post : List Char) (p : Char), (∀ x ∈ post, is_separator x = false) →
      p ≠ '/' → p ≠ '\\' →
      strip_ext (pre ++ p :: '.' :: post) = pre ++ [p]) ∧
    (∀ (pre post : List Char) (p : Char), (∀ x ∈ post, is_separator x = false) →
      (p = '/' ∨ p = '\\') →
      strip_ext (pre ++ p :: '.' :: post) = pre ++ p :: '.' :: post) ∧
    (∀ (pre post : List Char) (p c : Char), (∀ x ∈ post, is_separator x = false) →
      (c = '/' ∨ c = '\\') →
      strip_ext (pre ++ p :: c :: post) = pre ++ p :: c :: post) ∧
    (∀ (c : Char) (post : List Char), (∀ x ∈ post, is_separator x = false) →
      strip_ext (c :: post) = c :: post) ∧
    strip_ext [] = [] := by
  refine ⟨?_, ?_, ?_, ?_, ?_, rfl⟩
  · intro fname
    unfold strip_ext
    simp only []
    split_ifs
    · exact List.take_prefix _ _
    · exact List.prefix_refl _
  · intro pre post p hpost hp1 hp2
    have hscan := strip_ext_scan_split pre post p '.' (by decide) hpost
    have hdot := getD_after_split pre p ('.' :: post) 0
    rw [Nat.add_zero, List.getD_cons_zero] at hdot
    have hprev := getD_at_split pre p ('.' :: post)
    unfold strip_ext
    simp only [hscan, hdot, Nat.add_sub_cancel, hprev]
    rw [if_pos ⟨by omega, trivial, hp2, hp1⟩]
    have : pre ++ p :: '.' :: post = (pre ++ [p]) ++ '.' :: post := by simp
    rw [this]
    exact List.take_left' (by simp)
  · intro pre post p hpost hp
    have hscan := strip_ext_scan_split pre post p '.' (by decide) hpost
    have hprev := getD_at_split pre p ('.' :: post)
    unfold strip_ext
    simp only [hscan, Nat.add_sub_cancel, hprev]
    rw [if_neg]
    rintro ⟨-, -, h1, h2⟩
    rcases hp with hp | hp
    · exact h2 hp
    · exact h1 hp
  · intro pre post p c hpost hc
    have hsep : is_separator c = true := by
      rcases hc with hc | hc <;> rw [hc] <;> decide
    have hscan := strip_ext_scan_split pre post p c hsep hpost
    have hat := getD_after_split pre p (c :: post) 0
    rw [Nat.add_zero, List.getD_cons_zero] at hat
    unfold strip_ext
    simp only [hscan, hat]
    rw [if_neg]
    rintro ⟨-, h, -, -⟩
    rcases hc with hc | hc <;> rw [hc] at h <;> exact absurd h (by decide)
  · intro c post hpost
    have hscan := strip_ext_scan_head c post hpost
    unfold strip_ext
    simp only [hscan]
    rw [if_neg]
    rintro ⟨h, -⟩
    omega

/-- The four paths of C23: `dir/foo.vol` is cut to `dir/foo`, and `dir.d/foo`, `.hidden`
and `dir/.hidden` are left as they are. -/
theorem strip_ext_cuts_last_extension_witness :
    strip_ext "dir/foo.vol".toList = "dir/foo".toList ∧
    strip_ext "dir.d/foo".toList = "dir.d/foo".toList ∧
    strip_ext ".hidden".toList = ".hidden".toList ∧
    strip_ext "dir/.hidden".toList = "dir/.hidden".toList :=
  ⟨strip_ext_cuts_last_extension.2.1 "dir/fo".toList "vol".toList 'o' (by decide)
      (by decide) (by decide),
    strip_ext_cuts_last_extension.2.2.2.1 "dir.".toList "foo".toList 'd' '/' (by decide)
      (Or.inl rfl),
    strip_ext_cuts_last_extension.2.2.2.2.1 '.' "hidden".toList (by decide),
    strip_ext_cuts_last_extension.2.2.1 "dir".toList "hidden".toList '/' (by decide)
      (Or.inl rfl)⟩

end Rescale
